import Mathlib

/-!
Verification model of toybox `xargs.c` (toys/posix/xargs.c).

The program reads delimiter-separated input, chops it into tokens,
accumulates tokens into batches bounded by a byte budget (`TT.s`), an
entry budget (`TT.n`) and an optional stop string (`TT.E`), and runs a
fixed command (`toys.optargs`) once per batch with the batch's tokens
appended.

Strings are modelled as `List Char`; the global state `TT` of the C
program becomes explicit parameters (`Config` for the configuration
fields, explicit `entries`/`bytes` accumulators for the mutable
counters).  Loops of the C source become fuel-indexed structural
recursions; every wrapper instantiates the fuel with a bound that is
proved (or chosen) sufficient, so all definitions compute by `decide`.
-/

/-- C `isspace` on byte values: space, \t, \n, \v, \f, \r. -/
def isSpc (c : Char) : Bool := c == ' ' || (decide (9 ≤ c.toNat) && decide (c.toNat ≤ 13))

/-- Negation of `isSpc`, the token-character predicate. -/
def nsp (c : Char) : Bool := !(isSpc c)

/-- Result of one `handle_entries` call (xargs.c:50-53):
`needMore` = returned NULL (need more data), `leftover rest` = returned a
pointer into the data (hit a limit, `rest` not yet consumed),
`allConsumed` = returned `(char *)1`, `stopStr` = returned `(char *)2`. -/
inductive HRes where
  | needMore
  | allConsumed
  | stopStr
  | leftover (rest : List Char)
deriving DecidableEq

/-- Counters and result of a counting-mode `handle_entries` call. -/
structure HOut where
  res : HRes
  entries : Nat
  bytes : Nat
deriving DecidableEq

/-- Counters, result, and the tokens written to `entry[]`, for a
filling-mode `handle_entries` call. -/
structure FOut where
  res : HRes
  entries : Nat
  bytes : Nat
  toks : List (List Char)
deriving DecidableEq

/-- Projection dropping the written tokens. -/
def FOut.st (o : FOut) : HOut := ⟨o.res, o.entries, o.bytes⟩

/-- Configuration: the option-derived fields of `GLOBALS` plus the fixed
command words.  `n = 0` and `s = 0` mean the corresponding budget is
unset (the C tests are `TT.n && ...` and `... && TT.s`). `delim0` is
`FLAG(0)` (null-delimited mode, `TT.delim` stays 0). -/
structure Config where
  delim0 : Bool
  n : Nat
  s : Nat
  E : Option (List Char)
  rFlag : Bool
  cmd : List (List Char)

/-- Inner byte-accounting loop of `handle_entries` (xargs.c:78-82):
per iteration first `++TT.bytes` and the budget test
`TT.bytes >= TT.s && TT.s` (returning the token start on a hit), then
the end-of-token test, then advance.  Returns (hit budget?, new bytes). -/
def tokLoop (slim : Nat) : Nat → List Char → Bool × Nat
  | b, [] => if slim ≠ 0 ∧ slim ≤ b + 1 then (true, b + 1) else (false, b + 1)
  | b, c :: r =>
    if slim ≠ 0 ∧ slim ≤ b + 1 then (true, b + 1)
    else if isSpc c then (false, b + 1)
    else tokLoop slim (b + 1) r

/-- Whitespace-mode branch of `handle_entries` (xargs.c:57-90) in filling
mode (`entry != NULL`): skip whitespace, test the entry budget, consume a
token through `tokLoop`, test the stop string, record the token, repeat.
Fuel counts outer-loop iterations; `length l + 1` always suffices. -/
def wsFillF (cfg : Config) : Nat → List Char → Nat → Nat → FOut
  | 0, _, e, b => ⟨.needMore, e, b, []⟩
  | f + 1, l, e, b =>
    if l = [] then ⟨.needMore, e, b, []⟩
    else
      let l1 := l.dropWhile isSpc
      if cfg.n ≠ 0 ∧ cfg.n ≤ e then
        if l1 = [] then ⟨.allConsumed, e, b, []⟩ else ⟨.leftover l1, e, b, []⟩
      else if l1 = [] then ⟨.needMore, e, b, []⟩
      else
        let tk := tokLoop cfg.s b l1
        if tk.1 then ⟨.leftover l1, e, tk.2, []⟩
        else
          let tok := l1.takeWhile nsp
          if cfg.E = some tok then ⟨.stopStr, e, tk.2, []⟩
          else
            let o := wsFillF cfg f (l1.dropWhile nsp) (e + 1) tk.2
            ⟨o.res, o.entries, o.bytes, tok :: o.toks⟩

/-- Whitespace-mode branch of `handle_entries` in counting mode
(`entry == NULL`): identical control flow, no tokens recorded. -/
def wsCountF (cfg : Config) : Nat → List Char → Nat → Nat → HOut
  | 0, _, e, b => ⟨.needMore, e, b⟩
  | f + 1, l, e, b =>
    if l = [] then ⟨.needMore, e, b⟩
    else
      let l1 := l.dropWhile isSpc
      if cfg.n ≠ 0 ∧ cfg.n ≤ e then
        if l1 = [] then ⟨.allConsumed, e, b⟩ else ⟨.leftover l1, e, b⟩
      else if l1 = [] then ⟨.needMore, e, b⟩
      else
        let tk := tokLoop cfg.s b l1
        if tk.1 then ⟨.leftover l1, e, tk.2⟩
        else
          let tok := l1.takeWhile nsp
          if cfg.E = some tok then ⟨.stopStr, e, tk.2⟩
          else wsCountF cfg f (l1.dropWhile nsp) (e + 1) tk.2

/-- Null-delimited (`-0`) branch of `handle_entries` (xargs.c:93-99),
filling mode.  `sizeof(char *)` is 8 (LP64).  The whole line is one
token; bytes are charged before either rejection test. -/
def nullFill (cfg : Config) (l : List Char) (e b : Nat) : FOut :=
  let b2 := b + 8 + l.length + 1
  if cfg.s ≠ 0 ∧ cfg.s ≤ b2 then ⟨.leftover l, e, b2, []⟩
  else if cfg.n ≠ 0 ∧ cfg.n ≤ e then ⟨.leftover l, e, b2, []⟩
  else ⟨.needMore, e + 1, b2, [l]⟩

/-- Null-delimited branch of `handle_entries`, counting mode. -/
def nullCount (cfg : Config) (l : List Char) (e b : Nat) : HOut :=
  let b2 := b + 8 + l.length + 1
  if cfg.s ≠ 0 ∧ cfg.s ≤ b2 then ⟨.leftover l, e, b2⟩
  else if cfg.n ≠ 0 ∧ cfg.n ≤ e then ⟨.leftover l, e, b2⟩
  else ⟨.needMore, e + 1, b2⟩

/-- `handle_entries(data, entry)` with `entry != NULL` (fill `out[]`). -/
def handleFill (cfg : Config) (l : List Char) (e b : Nat) : FOut :=
  if cfg.delim0 then nullFill cfg l e b else wsFillF cfg (l.length + 1) l e b

/-- `handle_entries(data, NULL)` (count only). -/
def handleCount (cfg : Config) (l : List Char) (e b : Nat) : HOut :=
  if cfg.delim0 then nullCount cfg l e b else wsCountF cfg (l.length + 1) l e b

/-- Initial byte count charged for the fixed command words
(xargs.c:129-130): `bytes = -1; for each word: bytes += strlen(word) + 1`. -/
def cmdBytes (cfg : Config) : Nat :=
  (cfg.cmd.map List.length).sum + cfg.cmd.length - 1

/-- Whitespace-separated words of a character list (specification-side
view of the token stream), fuel-indexed; `length l` fuel suffices. -/
def wsWordsF : Nat → List Char → List (List Char)
  | 0, _ => []
  | f + 1, l =>
    let l1 := l.dropWhile isSpc
    if l1 = [] then []
    else l1.takeWhile nsp :: wsWordsF f (l1.dropWhile nsp)

/-- Whitespace-separated words of a character list. -/
def wsWords (l : List Char) : List (List Char) := wsWordsF l.length l

/-- Words of a list of lines, concatenated in order. -/
def joinW (ls : List (List Char)) : List (List Char) := (ls.map wsWords).flatten

/-- Words of an optional pending fragment. -/
def optW : Option (List Char) → List (List Char)
  | none => []
  | some l => wsWords l

/-- The carried-over fragment as a (zero- or one-element) line list. -/
def optL : Option (List Char) → List (List Char)
  | none => []
  | some l => [l]

/-- Words still pending: the carried-over fragment, then the unread lines. -/
def pendW (d : Option (List Char)) (ls : List (List Char)) : List (List Char) :=
  optW d ++ joinW ls

/-- Byte accounting charged by the whitespace tokenizer for a word list:
each word costs its length plus one. -/
def wCost (ws : List (List Char)) : Nat := (ws.map (fun t => t.length + 1)).sum

/-- Not the newline delimiter. -/
def notNl (c : Char) : Bool := c != '\n'

/-- `getdelim(..., '\n', stdin)` semantics over a whole input stream:
chunks end with (and include) the delimiter; a final unterminated chunk
is returned as-is; at end of input the call fails (no more lines).
Fuel-indexed; `length input` suffices. -/
def splitLinesF : Nat → List Char → List (List Char)
  | 0, _ => []
  | f + 1, l =>
    if l = [] then []
    else
      match l.dropWhile notNl with
      | [] => [l.takeWhile notNl]
      | _ :: rs => (l.takeWhile notNl ++ ['\n']) :: splitLinesF f rs

/-- The line sequence `getdelim` yields for a newline-delimited stream. -/
def splitLines (input : List Char) : List (List Char) := splitLinesF input.length input

/-- State after the inner read loop of `xargs_main` (xargs.c:140-163):
pending fragment (`data` after the loop), unread lines, the pending list
`dlist` in order, the counters, and whether `done` was incremented
(end of input, or stop string matched). -/
structure RLOut where
  dat : Option (List Char)
  lines : List (List Char)
  dlist : List (List Char)
  entries : Nat
  bytes : Nat
  doneInc : Bool
deriving DecidableEq

/-- Inner read loop of `xargs_main` (xargs.c:140-163): while no boundary
is found, read a line (end of input increments `done` and leaves
`data = 0`), append it to `dlist`, and count it with
`handle_entries(data, NULL)`; `NULL` means continue, `(char *)2`
increments `done`, values `<= 2` clear `data`, a real pointer is kept
(strdup) as the leftover for the next batch.  Fuel counts iterations;
`2 * lines.length + 3` always suffices. -/
def readLoopF (cfg : Config) : Nat → Option (List Char) → List (List Char) →
    List (List Char) → Nat → Nat → RLOut
  | 0, d, ls, dl, e, b => ⟨d, ls, dl, e, b, true⟩
  | _ + 1, none, [], dl, e, b => ⟨none, [], dl, e, b, true⟩
  | f + 1, none, l :: ls, dl, e, b => readLoopF cfg f (some l) ls dl e b
  | f + 1, some d, ls, dl, e, b =>
    let o := handleCount cfg d e b
    match o.res with
    | .needMore => readLoopF cfg f none ls (dl ++ [d]) o.entries o.bytes
    | .allConsumed => ⟨none, ls, dl ++ [d], o.entries, o.bytes, false⟩
    | .stopStr => ⟨none, ls, dl ++ [d], o.entries, o.bytes, true⟩
    | .leftover r => ⟨some r, ls, dl ++ [d], o.entries, o.bytes, false⟩

/-- Read loop with sufficient fuel. -/
def readLoop (cfg : Config) (d : Option (List Char)) (ls dl : List (List Char))
    (e b : Nat) : RLOut :=
  readLoopF cfg (2 * ls.length + 3) d ls dl e b

/-- Fuel cost of the carried-over fragment in the read loop. -/
def dCost : Option (List Char) → Nat
  | none => 0
  | some _ => 1

/-- The fill pass of `xargs_main` (xargs.c:174-178): counters reset,
then `handle_entries(line, out+entries)` over every retained line, in
order; results of the individual calls are ignored.  Returns the final
counters and all tokens written. -/
def fillPassF (cfg : Config) : List (List Char) → Nat → Nat → Nat × Nat × List (List Char)
  | [], e, b => (e, b, [])
  | l :: ls, e, b =>
    let o := handleFill cfg l e b
    let r := fillPassF cfg ls o.entries o.bytes
    (r.1, r.2.1, o.toks ++ r.2.2)

/-- The counting-state fold over the same lines: `handle_entries(line, NULL)`
threading `TT.entries`/`TT.bytes` (this is exactly the state threading the
read loop performs on the lines it retains). -/
def countPassF (cfg : Config) : List (List Char) → Nat → Nat → Nat × Nat
  | [], e, b => (e, b)
  | l :: ls, e, b =>
    let o := handleCount cfg l e b
    countPassF cfg ls o.entries o.bytes

/-- Tokens a batch passes to the command: the fill pass over its pending
list, from the reset counters (`TT.entries = 0; TT.bytes = bytes`). -/
def fillToks (cfg : Config) (dl : List (List Char)) : List (List Char) :=
  (fillPassF cfg dl 0 (cmdBytes cfg)).2.2

/-- Writing the collected token pointers into the argument vector:
`entry[TT.entries] = save` becomes a `List.set` at index `base + i`. -/
def writeToks : List (Option (List Char)) → Nat → List (List Char) → List (Option (List Char))
  | out, _, [] => out
  | out, i, t :: ts => writeToks (out.set i (some t)) (i + 1) ts

/-- The argument vector construction (xargs.c:170-178): allocate
`cmd.length + cnt + 1` null slots (`xzalloc`), `memcpy` the fixed command
words, then let the fill pass write one pointer per collected token
starting at slot `cmd.length`.  The final slot stays null. -/
def buildOut (cmd : List (List Char)) (cnt : Nat) (toks : List (List Char)) :
    List (Option (List Char)) :=
  writeToks (cmd.map some ++ List.replicate (cnt + 1) none) cmd.length toks

/-- Result of a whole run: the token lists of the executed batches, in
order, ending either normally or in the fatal
`error_exit("argument too long")` (xargs.c:169). -/
inductive Outcome where
  | ok (batches : List (List (List Char)))
  | tooLong (batches : List (List (List Char)))
deriving DecidableEq

/-- The executed batches of an outcome. -/
def Outcome.batches : Outcome → List (List (List Char))
  | .ok b => b
  | .tooLong b => b

/-- Outer exec loop of `xargs_main` (xargs.c:133-211):
`while (data || !done)`: reset the counters, run the read loop, skip the
batch if it is empty and `-r` is set, die with "argument too long" if a
leftover exists but nothing was counted, otherwise build and run the
batch (the fill pass recomputes the tokens from the retained lines).
The decoded child exit status (xargs.c:198-199) is assigned to a local
that the loop never reads, so it cannot influence the control flow and
does not appear in the state.  Fuel counts batch iterations. -/
def runLoop (cfg : Config) : Nat → Option (List Char) → List (List Char) → Bool →
    List (List (List Char)) → Option Outcome
  | 0, _, _, _, _ => none
  | f + 1, d, ls, done, acc =>
    if d = none ∧ done = true then some (.ok acc.reverse)
    else
      let o := readLoop cfg d ls [] 0 (cmdBytes cfg)
      let done2 := done || o.doneInc
      if o.entries = 0 ∧ cfg.rFlag = true then runLoop cfg f o.dat o.lines done2 acc
      else if o.dat ≠ none ∧ o.entries = 0 then some (.tooLong acc.reverse)
      else runLoop cfg f o.dat o.lines done2 (fillToks cfg o.dlist :: acc)

/-- A whole run over a newline-delimited standard input stream (the
default delimiter mode), with `cfg.s` the byte budget as `TT.s` holds it
when the exec loop starts, that is AFTER the POSIX clamp of
xargs.c:117-118 has run; the clamp itself is `posixClampS` below and the
clamped entry point is `xargsMainRun`. -/
def xargsRun (cfg : Config) (fuel : Nat) (input : List Char) : Option Outcome :=
  runLoop cfg fuel none (splitLines input) false []

/-- The POSIX byte-budget clamp of `xargs_main` (xargs.c:117-118):
`posix_max_bytes = sysconf(_SC_ARG_MAX) - environ_bytes() - 2048;
if (!TT.s || TT.s > posix_max_bytes) TT.s = posix_max_bytes;`.
`pmb` is the host- and environment-dependent value of
`posix_max_bytes`; the user budget `s` is replaced by `pmb` whenever it
is unset (0) or larger than `pmb`, so the effective budget is never the
"unset" 0 on hosts where `pmb` is positive. -/
def posixClampS (pmb s : Nat) : Nat := if s = 0 ∨ pmb < s then pmb else s

/-- `xargs_main` including the byte-budget clamp: the run of `xargsRun`
at the clamped budget.  `cfg.s` here is the user-supplied `-s` value
(0 when `-s` was not given). -/
def xargsMainRun (pmb : Nat) (cfg : Config) (fuel : Nat) (input : List Char) :
    Option Outcome :=
  xargsRun ⟨cfg.delim0, cfg.n, posixClampS pmb cfg.s, cfg.E, cfg.rFlag, cfg.cmd⟩ fuel input

/-- Greedy byte-budget split of a word list, mirroring the
charge-then-test loop of xargs.c:78-82 at the word level: starting from
running byte count `b`, a word `t` is accepted exactly when the budget
is unset or `b + length t + 1` stays strictly below it, and the first
rejected word stops the batch.  `costTake` is the accepted prefix. -/
def costTake (s : Nat) : Nat → List (List Char) → List (List Char)
  | _, [] => []
  | b, t :: ts =>
    if s = 0 ∨ b + t.length + 1 < s then t :: costTake s (b + t.length + 1) ts else []

/-- The complementary suffix of `costTake`: the words the byte budget
pushes into later batches. -/
def costDrop (s : Nat) : Nat → List (List Char) → List (List Char)
  | _, [] => []
  | b, t :: ts =>
    if s = 0 ∨ b + t.length + 1 < s then costDrop s (b + t.length + 1) ts else t :: ts

/-- Linux wait-status predicate `WIFEXITED`: low seven bits all zero. -/
def wifexited (st : Nat) : Bool := st % 128 = 0

/-- Linux wait-status accessor `WEXITSTATUS`: bits 8-15. -/
def wexitstatus (st : Nat) : Nat := st / 256 % 256

/-- Linux wait-status accessor `WTERMSIG`: low seven bits. -/
def wtermsig (st : Nat) : Nat := st % 128

/-- Child-status decoding of `xargs_main` (xargs.c:199):
`status = WIFEXITED(status) ? WEXITSTATUS(status) : WTERMSIG(status)+127`. -/
def decodeStatus (st : Nat) : Nat :=
  if wifexited st then wexitstatus st else wtermsig st + 127

/-- Classification of a tokenizer result in the entry-limited regime
(max-entries set, no byte budget, no stop string): either the line ran
out with no words remaining, or the quota was filled exactly and the
line had only trailing whitespace left (`allConsumed`), or a leftover
fragment carries exactly the remaining words. -/
def C6Res (cfg : Config) (res : HRes) (rem : List (List Char)) (efin : Nat) : Prop :=
  (res = .needMore ∧ rem = []) ∨
  (res = .allConsumed ∧ rem = [] ∧ efin = cfg.n) ∨
  (∃ l2, res = .leftover l2 ∧ wsWords l2 = rem ∧ rem ≠ [] ∧ efin = cfg.n)

/-! ### Small helper lemmas about the list primitives -/

theorem length_dropWhile_le' (p : α → Bool) (l : List α) :
    (l.dropWhile p).length ≤ l.length := by
  induction l with
  | nil => simp
  | cons a l ih =>
    by_cases h : p a
    · rw [List.dropWhile_cons_of_pos h]; exact le_trans ih (Nat.le_succ _)
    · rw [List.dropWhile_cons_of_neg h]

theorem dropWhile_head_false {p : α → Bool} {l : List α} {c : α} {r : List α}
    (h : l.dropWhile p = c :: r) : p c = false := by
  induction l with
  | nil => simp at h
  | cons a l ih =>
    by_cases hp : p a
    · rw [List.dropWhile_cons_of_pos hp] at h; exact ih h
    · rw [List.dropWhile_cons_of_neg hp] at h
      cases h; simpa using hp

theorem dropWhile_idem (p : α → Bool) (l : List α) :
    (l.dropWhile p).dropWhile p = l.dropWhile p := by
  cases h : l.dropWhile p with
  | nil => simp
  | cons c r =>
    have := dropWhile_head_false h
    rw [List.dropWhile_cons_of_neg (by simp [this])]

theorem takeWhile_append_of_stop {p : α → Bool} {A : List α} (B : List α)
    (h : A.dropWhile p ≠ []) : (A ++ B).takeWhile p = A.takeWhile p := by
  induction A with
  | nil => simp at h
  | cons a A ih =>
    by_cases hp : p a
    · rw [List.dropWhile_cons_of_pos hp] at h
      simp only [List.cons_append, List.takeWhile_cons_of_pos hp, ih h]
    · simp only [List.cons_append, List.takeWhile_cons_of_neg hp]

theorem dropWhile_append_of_stop {p : α → Bool} {A : List α} (B : List α)
    (h : A.dropWhile p ≠ []) : (A ++ B).dropWhile p = A.dropWhile p ++ B := by
  induction A with
  | nil => simp at h
  | cons a A ih =>
    by_cases hp : p a
    · rw [List.dropWhile_cons_of_pos hp] at h
      simp only [List.cons_append, List.dropWhile_cons_of_pos hp, ih h]
    · simp only [List.cons_append, List.dropWhile_cons_of_neg hp]

theorem dropWhile_append_of_all {p : α → Bool} {A : List α} (B : List α)
    (h : A.dropWhile p = []) : (A ++ B).dropWhile p = B.dropWhile p := by
  induction A with
  | nil => simp
  | cons a A ih =>
    by_cases hp : p a
    · rw [List.dropWhile_cons_of_pos hp] at h
      simp only [List.cons_append, List.dropWhile_cons_of_pos hp, ih h]
    · rw [List.dropWhile_cons_of_neg hp] at h; simp at h

theorem getLast?_suffix {l x : List α} (pre : List α) (hx : x ≠ [])
    (h : l = pre ++ x) : l.getLast? = x.getLast? := by
  subst h
  induction pre with
  | nil => rfl
  | cons a pre ih =>
    rw [List.cons_append, List.getLast?_cons, ih]
    cases x with
    | nil => exact absurd rfl hx
    | cons y ys => simp [List.getLast?_cons]

/-! ### Fuel stability and unfolding for `wsWords` -/

theorem wsWordsF_stable : ∀ m : Nat, ∀ f g l, l.length ≤ f → l.length ≤ g →
    l.length ≤ m → wsWordsF f l = wsWordsF g l := by
  intro m
  induction m with
  | zero =>
    intro f g l hf hg hm
    have : l = [] := List.length_eq_zero.mp (Nat.le_zero.mp hm)
    subst this
    cases f <;> cases g <;> simp [wsWordsF]
  | succ m ih =>
    intro f g l hf hg hm
    cases l with
    | nil => cases f <;> cases g <;> simp [wsWordsF]
    | cons a l0 =>
      cases f with
      | zero => simp at hf
      | succ f =>
        cases g with
        | zero => simp at hg
        | succ g =>
          simp only [List.length_cons] at hf hg hm
          simp only [wsWordsF]
          by_cases h1 : (a :: l0).dropWhile isSpc = []
          · simp [h1]
          · rw [if_neg h1, if_neg h1]
            congr 1
            obtain ⟨c, r, hcr⟩ : ∃ c r, (a :: l0).dropWhile isSpc = c :: r := by
              cases hh : (a :: l0).dropWhile isSpc with
              | nil => exact absurd hh h1
              | cons c r => exact ⟨c, r, rfl⟩
            have hc : isSpc c = false := dropWhile_head_false hcr
            have hlen1 : ((a :: l0).dropWhile isSpc).length ≤ l0.length + 1 :=
              length_dropWhile_le' _ _
            have hlt : (((a :: l0).dropWhile isSpc).dropWhile nsp).length < l0.length + 1 := by
              rw [hcr, List.dropWhile_cons_of_pos (by simp [nsp, hc])]
              have := length_dropWhile_le' nsp r
              have : (r.dropWhile nsp).length ≤ r.length := this
              have hr : (c :: r).length ≤ l0.length + 1 := by rw [← hcr]; exact hlen1
              simp only [List.length_cons] at hr
              omega
            exact ih f g _ (by omega) (by omega) (by omega)

theorem wsWordsF_eq_wsWords {f : Nat} {l : List Char} (h : l.length ≤ f) :
    wsWordsF f l = wsWords l :=
  wsWordsF_stable l.length f l.length l h le_rfl le_rfl

/-- One-step unfolding of `wsWords`. -/
theorem wsWords_unfold (l : List Char) :
    wsWords l = if l.dropWhile isSpc = [] then []
      else (l.dropWhile isSpc).takeWhile nsp ::
        wsWords ((l.dropWhile isSpc).dropWhile nsp) := by
  by_cases h1 : l.dropWhile isSpc = []
  · rw [if_pos h1]
    cases l with
    | nil => rfl
    | cons a l0 =>
      show wsWordsF (l0.length + 1) (a :: l0) = []
      simp [wsWordsF, h1]
  · rw [if_neg h1]
    cases l with
    | nil => simp at h1
    | cons a l0 =>
      show wsWordsF (l0.length + 1) (a :: l0) = _
      simp only [wsWordsF, if_neg h1]
      congr 1
      obtain ⟨c, r, hcr⟩ : ∃ c r, (a :: l0).dropWhile isSpc = c :: r := by
        cases hh : (a :: l0).dropWhile isSpc with
        | nil => exact absurd hh h1
        | cons c r => exact ⟨c, r, rfl⟩
      have hc : isSpc c = false := dropWhile_head_false hcr
      have hlen1 : ((a :: l0).dropWhile isSpc).length ≤ l0.length + 1 :=
        length_dropWhile_le' _ _
      have hlt : (((a :: l0).dropWhile isSpc).dropWhile nsp).length ≤ l0.length := by
        rw [hcr, List.dropWhile_cons_of_pos (by simp [nsp, hc])]
        have := length_dropWhile_le' nsp r
        have hr : (c :: r).length ≤ l0.length + 1 := by rw [← hcr]; exact hlen1
        simp only [List.length_cons] at hr
        omega
      exact wsWordsF_eq_wsWords hlt

theorem wsWords_nil : wsWords [] = [] := rfl

theorem wsWords_dropWhile (l : List Char) :
    wsWords (l.dropWhile isSpc) = wsWords l := by
  rw [wsWords_unfold (l.dropWhile isSpc), wsWords_unfold l, dropWhile_idem]

/-- Words of an all-space list are empty. -/
theorem wsWords_eq_nil_of_drop {l : List Char} (h : l.dropWhile isSpc = []) :
    wsWords l = [] := by
  rw [wsWords_unfold, if_pos h]

/-! ### Claim C2: child status decoding -/

/-- Claim C2 counterexample: a child terminated by signal 9 (raw wait
status 9) is decoded to 136 = 127 + 9, not 128 + 9 as the claim states. -/
theorem c2_signal_decode_cex : decodeStatus 9 = 136 ∧ ¬ decodeStatus 9 = 128 + 9 := by
  decide

/-- Claim C2 (amended): the decoded disposition equals the child's exit
code on a normal exit, and 127 plus the signal number (not 128 plus) on
termination by a signal (xargs.c:199). -/
theorem c2_decode_amended : ∀ code sig : Nat, code < 256 → 0 < sig → sig < 128 →
    decodeStatus (256 * code) = code ∧ decodeStatus sig = sig + 127 := by
  intro code sig hc hs1 hs2
  constructor
  · have h1 : (256 * code) % 128 = 0 := by omega
    have h2 : 256 * code / 256 % 256 = code := by omega
    simp [decodeStatus, wifexited, wexitstatus, h1, h2, hc]
  · have h2 : ¬ sig % 128 = 0 := by omega
    have h3 : sig % 128 = sig := by omega
    simp [decodeStatus, wifexited, wtermsig, h2, h3]
    intro h0
    exact absurd h0 (by omega)

/-- Witness for `c2_decode_amended` at exit code 7 and signal 9. -/
theorem c2_decode_amended_witness :
    decodeStatus (256 * 7) = 7 ∧ decodeStatus 9 = 9 + 127 :=
  c2_decode_amended 7 9 (by decide) (by decide) (by decide)

/-! ### Claim C5: null-mode rejection accounting -/

/-- Claim C5 counterexample: in null mode with max-bytes 1, the line "a"
is rejected (returned whole as leftover) but the running byte count is
not left unchanged: it moves from 0 to 10 = 8 + 1 + 1. -/
theorem c5_null_reject_cex :
    (nullCount ⟨true, 0, 1, none, false, [['e']]⟩ ['a'] 0 0).res = .leftover ['a'] ∧
    (nullCount ⟨true, 0, 1, none, false, [['e']]⟩ ['a'] 0 0).bytes = 10 ∧
    ¬ (nullCount ⟨true, 0, 1, none, false, [['e']]⟩ ['a'] 0 0).bytes = 0 := by
  decide

/-- Claim C5 (amended): in null-delimited mode the tokenizer charges
pointer-slot width (8) + string length + 1 to the byte count before
either rejection test; on rejection (byte budget reached, or entry
ceiling reached) it returns the whole line as leftover with the entry
count unchanged but the byte count retaining that increment
(xargs.c:93-99). -/
theorem c5_null_reject_amended : ∀ (cfg : Config) (l : List Char) (e b : Nat),
    cfg.delim0 = true →
    ((cfg.s ≠ 0 ∧ cfg.s ≤ b + 8 + l.length + 1) ∨ (cfg.n ≠ 0 ∧ cfg.n ≤ e)) →
    handleCount cfg l e b = ⟨.leftover l, e, b + 8 + l.length + 1⟩ := by
  intro cfg l e b h0 h
  simp only [handleCount, h0, if_true, nullCount]
  rcases h with hs | hn
  · rw [if_pos hs]
  · by_cases hs2 : cfg.s ≠ 0 ∧ cfg.s ≤ b + 8 + l.length + 1
    · rw [if_pos hs2]
    · rw [if_neg hs2, if_pos hn]

/-- Witness for `c5_null_reject_amended`: max-bytes 1, line "a". -/
theorem c5_null_reject_amended_witness :
    handleCount ⟨true, 0, 1, none, false, [['e']]⟩ ['a'] 0 0 = ⟨.leftover ['a'], 0, 10⟩ :=
  c5_null_reject_amended ⟨true, 0, 1, none, false, [['e']]⟩ ['a'] 0 0 rfl (by decide)

/-! ### Claim C9: empty input runs the command once -/

/-- Claim C9: without the suppress-empty flag (`-r`), immediate end of
input still executes exactly one batch, whose argument vector is the
fixed command words followed by the terminating null slot, with zero
collected tokens (xargs.c:133-197). -/
theorem c9_empty_input_runs_once : ∀ (d0 : Bool) (n s : Nat) (E : Option (List Char))
    (cmd : List (List Char)),
    xargsRun ⟨d0, n, s, E, false, cmd⟩ 2 [] = some (.ok [[]]) ∧
    buildOut cmd 0 [] = cmd.map some ++ [none] := by
  intro d0 n s E cmd
  exact ⟨rfl, rfl⟩

/-! ### Claim C1: exit status 255 does not stop the loop (code bug) -/

/-- Claim C1 is violated by the code: the decoded child status
(xargs.c:199) is stored in a local that the exec loop never reads, so no
exit code - 255 included - can stop further batches.  Evaluating the
model on input "a\nb\n" with -r -n 1: two batches run whatever the
children do, although the tool's own help text (xargs.c:23) promises
that an exit status of 255 prevents the second launch. -/
theorem c1_exit255_ignored :
    xargsRun ⟨false, 1, 1000, none, true, [['e', 'c', 'h', 'o']]⟩ 4
      ['a', '\n', 'b', '\n'] = some (.ok [[['a']], [['b']]]) := by
  decide

/-! ### The inner byte loop: characterization -/

/-- With no byte budget the inner loop never trips and charges one byte
per token character plus one. -/
theorem tokLoop_zero (b : Nat) (t : List Char) :
    tokLoop 0 b t = (false, b + (t.takeWhile nsp).length + 1) := by
  induction t generalizing b with
  | nil => simp [tokLoop]
  | cons c r ih =>
    simp only [tokLoop]
    rw [if_neg (by simp)]
    by_cases hc : isSpc c
    · rw [if_pos hc, List.takeWhile_cons_of_neg (by simp [nsp, hc])]
      simp
    · rw [if_neg hc, ih, List.takeWhile_cons_of_pos (by simp [nsp, hc])]
      simp only [List.length_cons, Prod.mk.injEq, true_and]
      omega

/-- If the budget is strictly beyond the full token cost, the loop does
not trip and charges the full cost. -/
theorem tokLoop_false {slim : Nat} (hs : slim ≠ 0) (b : Nat) (t : List Char)
    (h : b + (t.takeWhile nsp).length + 1 < slim) :
    tokLoop slim b t = (false, b + (t.takeWhile nsp).length + 1) := by
  induction t generalizing b with
  | nil =>
    simp only [List.takeWhile_nil, List.length_nil] at h ⊢
    simp only [tokLoop]
    rw [if_neg (by intro hh; omega)]
  | cons c r ih =>
    by_cases hc : isSpc c
    · rw [List.takeWhile_cons_of_neg (by simp [nsp, hc])] at h ⊢
      simp only [List.length_nil] at h ⊢
      simp only [tokLoop]
      rw [if_neg (by intro hh; omega), if_pos hc]
    · rw [List.takeWhile_cons_of_pos (by simp [nsp, hc])] at h ⊢
      simp only [List.length_cons] at h ⊢
      simp only [tokLoop]
      rw [if_neg (by intro hh; omega), if_neg hc, ih (b + 1) (by omega)]
      simp only [Prod.mk.injEq, true_and]
      omega

/-- If the budget is within the full token cost, the loop trips. -/
theorem tokLoop_hit {slim : Nat} (hs : slim ≠ 0) (b : Nat) (t : List Char)
    (h : slim ≤ b + (t.takeWhile nsp).length + 1) :
    (tokLoop slim b t).1 = true := by
  induction t generalizing b with
  | nil =>
    simp only [List.takeWhile_nil, List.length_nil] at h
    simp only [tokLoop]
    rw [if_pos ⟨hs, by omega⟩]
  | cons c r ih =>
    simp only [tokLoop]
    by_cases hb : slim ≤ b + 1
    · rw [if_pos ⟨hs, hb⟩]
    · rw [if_neg (by intro hh; exact hb hh.2)]
      by_cases hc : isSpc c
      · rw [List.takeWhile_cons_of_neg (by simp [nsp, hc])] at h
        simp only [List.length_nil] at h
        exact absurd (by omega : slim ≤ b + 1) hb
      · rw [if_neg hc]
        refine ih (b + 1) ?_
        rw [List.takeWhile_cons_of_pos (by simp [nsp, hc])] at h
        simp only [List.length_cons] at h
        omega

/-- The byte count never decreases across the inner loop. -/
theorem tokLoop_le (slim : Nat) : ∀ (b : Nat) (t : List Char), b ≤ (tokLoop slim b t).2 := by
  intro b t
  induction t generalizing b with
  | nil =>
    simp only [tokLoop]
    split
    · exact Nat.le_succ b
    · exact Nat.le_succ b
  | cons c r ih =>
    simp only [tokLoop]
    split
    · exact Nat.le_succ b
    · split
      · exact Nat.le_succ b
      · exact le_trans (Nat.le_succ b) (ih (b + 1))

/-- Inverting a no-trip run of the inner loop: the final byte count is
the full token cost and stays below the budget. -/
theorem tokLoop_false_elim {slim b b2 : Nat} {t : List Char} (hs : slim ≠ 0)
    (h : tokLoop slim b t = (false, b2)) :
    b2 = b + (t.takeWhile nsp).length + 1 ∧ b2 < slim := by
  by_cases hlt : b + (t.takeWhile nsp).length + 1 < slim
  · rw [tokLoop_false hs b t hlt] at h
    simp only [Prod.mk.injEq, true_and] at h
    exact ⟨h.symm, h ▸ hlt⟩
  · have hh := tokLoop_hit hs b t (by omega)
    rw [h] at hh
    simp at hh

/-! ### Counting mode agrees with filling mode (the two-pass core) -/

/-- The counting call is the state projection of the filling call, and
the filling call records exactly the entries it counts. -/
theorem wsAgree (cfg : Config) : ∀ (f : Nat) (l : List Char) (e b : Nat),
    wsCountF cfg f l e b = (wsFillF cfg f l e b).st ∧
    (wsFillF cfg f l e b).entries = e + (wsFillF cfg f l e b).toks.length := by
  intro f
  induction f with
  | zero => intro l e b; exact ⟨rfl, by simp [wsFillF]⟩
  | succ f ih =>
    intro l e b
    simp only [wsFillF, wsCountF]
    by_cases h0 : l = []
    · simp [h0, FOut.st]
    · rw [if_neg h0, if_neg h0]
      by_cases h1 : cfg.n ≠ 0 ∧ cfg.n ≤ e
      · rw [if_pos h1, if_pos h1]
        by_cases h2 : l.dropWhile isSpc = []
        · simp [h2, FOut.st]
        · simp [h2, FOut.st]
      · rw [if_neg h1, if_neg h1]
        by_cases h2 : l.dropWhile isSpc = []
        · simp [h2, FOut.st]
        · rw [if_neg h2, if_neg h2]
          by_cases htk : (tokLoop cfg.s b (l.dropWhile isSpc)).1 = true
          · rw [if_pos htk, if_pos htk]
            exact ⟨rfl, by simp⟩
          · rw [if_neg htk, if_neg htk]
            by_cases h3 : cfg.E = some ((l.dropWhile isSpc).takeWhile nsp)
            · rw [if_pos h3, if_pos h3]
              exact ⟨rfl, by simp⟩
            · rw [if_neg h3, if_neg h3]
              obtain ⟨ha, hb⟩ := ih ((l.dropWhile isSpc).dropWhile nsp) (e + 1)
                (tokLoop cfg.s b (l.dropWhile isSpc)).2
              refine ⟨by rw [ha]; rfl, ?_⟩
              simp only [List.length_cons]
              omega

/-- `handle_entries` agreement, both delimiter modes. -/
theorem handleAgree (cfg : Config) (l : List Char) (e b : Nat) :
    handleCount cfg l e b = (handleFill cfg l e b).st ∧
    (handleFill cfg l e b).entries = e + (handleFill cfg l e b).toks.length := by
  by_cases h0 : cfg.delim0
  · simp only [handleCount, handleFill, h0, if_true, nullFill, nullCount]
    split
    · exact ⟨rfl, by simp [FOut.st]⟩
    · split
      · exact ⟨rfl, by simp [FOut.st]⟩
      · exact ⟨rfl, by simp [FOut.st]⟩
  · simp only [handleCount, handleFill, if_neg h0]
    exact wsAgree cfg (l.length + 1) l e b

/-- Pass-level agreement over a whole pending list. -/
theorem passAgree (cfg : Config) : ∀ (dl : List (List Char)) (e b : Nat),
    countPassF cfg dl e b = ((fillPassF cfg dl e b).1, (fillPassF cfg dl e b).2.1) ∧
    (fillPassF cfg dl e b).1 = e + (fillPassF cfg dl e b).2.2.length := by
  intro dl
  induction dl with
  | nil => intro e b; exact ⟨rfl, by simp [fillPassF]⟩
  | cons l ls ih =>
    intro e b
    obtain ⟨h1, h2⟩ := handleAgree cfg l e b
    simp only [countPassF, fillPassF]
    rw [h1]
    obtain ⟨ha, hb⟩ := ih (handleFill cfg l e b).entries (handleFill cfg l e b).bytes
    refine ⟨?_, ?_⟩
    · show countPassF cfg ls (handleFill cfg l e b).entries (handleFill cfg l e b).bytes = _
      rw [ha]
    · simp only [List.length_append]
      omega

/-- The read loop's counting of the lines it retains is exactly the
state fold of `handle_entries(_, NULL)` over those lines. -/
theorem readLoopF_count (cfg : Config) : ∀ (f : Nat) (d : Option (List Char))
    (ls dl : List (List Char)) (e b : Nat),
    2 * ls.length + 1 + dCost d ≤ f →
    ∃ dl2, (readLoopF cfg f d ls dl e b).dlist = dl ++ dl2 ∧
      countPassF cfg dl2 e b =
        ((readLoopF cfg f d ls dl e b).entries, (readLoopF cfg f d ls dl e b).bytes) := by
  intro f
  induction f with
  | zero =>
    intro d ls dl e b h
    omega
  | succ f ih =>
    intro d ls dl e b h
    cases d with
    | none =>
      cases ls with
      | nil => exact ⟨[], by simp [readLoopF], by simp [readLoopF, countPassF]⟩
      | cons l ls2 =>
        simp only [readLoopF]
        refine ih (some l) ls2 dl e b ?_
        simp only [List.length_cons, dCost] at h ⊢
        omega
    | some dd =>
      simp only [readLoopF]
      simp only [dCost] at h
      rcases hh : (handleCount cfg dd e b).res with _ | _ | _ | r
      · obtain ⟨dl2, hdl, hcp⟩ := ih none ls (dl ++ [dd])
          (handleCount cfg dd e b).entries (handleCount cfg dd e b).bytes
          (by simp only [dCost]; omega)
        refine ⟨dd :: dl2, ?_, ?_⟩
        · rw [hdl]; simp
        · simp only [countPassF, hh]
          exact hcp
      · refine ⟨[dd], by simp, ?_⟩
        simp [countPassF, hh]
      · refine ⟨[dd], by simp, ?_⟩
        simp [countPassF, hh]
      · refine ⟨[dd], by simp, ?_⟩
        simp [countPassF, hh]

/-- `readLoop` (sufficient fuel) version of `readLoopF_count`, with an
empty initial pending list: the retained lines are `dlist` itself. -/
theorem readLoop_count (cfg : Config) (d : Option (List Char)) (ls : List (List Char))
    (e b : Nat) :
    countPassF cfg (readLoop cfg d ls [] e b).dlist e b =
      ((readLoop cfg d ls [] e b).entries, (readLoop cfg d ls [] e b).bytes) := by
  obtain ⟨dl2, hdl, hcp⟩ := readLoopF_count cfg (2 * ls.length + 3) d ls [] e b
    (by cases d <;> simp only [dCost] <;> omega)
  rw [show readLoop cfg d ls [] e b = readLoopF cfg (2 * ls.length + 3) d ls [] e b from rfl]
  rw [hdl]
  simpa using hcp

/-! ### The argument vector construction -/

theorem set_append_boundary (v : α) : ∀ (A R : List α),
    (A ++ R).set A.length v = A ++ R.set 0 v := by
  intro A
  induction A with
  | nil => intro R; simp
  | cons a A ih =>
    intro R
    simp only [List.cons_append, List.length_cons, List.set_cons_succ]
    rw [ih]

/-- Writing `k` token pointers into `k + 1` fresh null slots fills all
but the last slot, which stays null. -/
theorem writeToks_fill : ∀ (ts : List (List Char)) (A : List (Option (List Char))),
    writeToks (A ++ List.replicate (ts.length + 1) none) A.length ts =
      A ++ ts.map some ++ [none] := by
  intro ts
  induction ts with
  | nil => intro A; simp [writeToks]
  | cons t ts ih =>
    intro A
    simp only [writeToks, List.length_cons]
    have hrep : List.replicate (ts.length + 1 + 1) (none : Option (List Char)) =
        none :: List.replicate (ts.length + 1) none := rfl
    rw [hrep, set_append_boundary]
    have hset : (none :: List.replicate (ts.length + 1) (none : Option (List Char))).set 0
        (some t) = some t :: List.replicate (ts.length + 1) none := rfl
    rw [hset]
    have hA : A ++ some t :: List.replicate (ts.length + 1) (none : Option (List Char)) =
        (A ++ [some t]) ++ List.replicate (ts.length + 1) none := by simp
    rw [hA]
    have hl : A.length + 1 = (A ++ [some t]).length := by simp
    rw [hl, ih (A ++ [some t])]
    simp

/-- The allocated vector receives the command words, then one slot per
token, and keeps its final null slot. -/
theorem buildOut_eq (cmd toks : List (List Char)) :
    buildOut cmd toks.length toks = cmd.map some ++ toks.map some ++ [none] := by
  have h := writeToks_fill toks (cmd.map some)
  rw [List.length_map] at h
  exact h

/-! ### Claim C10: the two-pass batch construction is consistent -/

/-- Claim C10: (1) re-running the tokenizer in filling mode over the
retained lines from the same initial counters reproduces the counting
pass exactly - same final entry and byte counters - and records exactly
(final - initial) tokens; (2) the counting the read loop performed on
the lines it retained is exactly that counting pass; (3) hence a vector
of (command length + counted entries + 1) slots receives one pointer per
recorded token after the command words, every write lands in bounds, and
the final slot remains the null terminator. -/
theorem c10_two_pass_refinement :
    (∀ (cfg : Config) (dl : List (List Char)) (e b : Nat),
      countPassF cfg dl e b = ((fillPassF cfg dl e b).1, (fillPassF cfg dl e b).2.1) ∧
      (fillPassF cfg dl e b).1 = e + (fillPassF cfg dl e b).2.2.length) ∧
    (∀ (cfg : Config) (d : Option (List Char)) (ls : List (List Char)) (e b : Nat),
      countPassF cfg (readLoop cfg d ls [] e b).dlist e b =
        ((readLoop cfg d ls [] e b).entries, (readLoop cfg d ls [] e b).bytes)) ∧
    (∀ (cmd toks : List (List Char)),
      buildOut cmd toks.length toks = cmd.map some ++ toks.map some ++ [none]) :=
  ⟨fun cfg dl e b => passAgree cfg dl e b,
   fun cfg d ls e b => readLoop_count cfg d ls e b,
   fun cmd toks => buildOut_eq cmd toks⟩

/-! ### Claim C7: per-batch byte budget invariant -/

/-- A no-trip inner loop run (queried through the pair projections). -/
theorem tokLoop_nohit {slim b : Nat} {t : List Char} (hs : slim ≠ 0)
    (h : ¬ (tokLoop slim b t).1 = true) :
    (tokLoop slim b t).2 = b + (t.takeWhile nsp).length + 1 ∧ (tokLoop slim b t).2 < slim := by
  by_cases hlt : b + (t.takeWhile nsp).length + 1 < slim
  · rw [tokLoop_false hs b t hlt]
    exact ⟨rfl, hlt⟩
  · exact absurd (tokLoop_hit hs b t (by omega)) h

theorem wCost_nil : wCost [] = 0 := rfl

theorem wCost_cons (t : List Char) (ts : List (List Char)) :
    wCost (t :: ts) = t.length + 1 + wCost ts := by
  simp [wCost]

theorem wCost_append (t1 t2 : List (List Char)) :
    wCost (t1 ++ t2) = wCost t1 + wCost t2 := by
  simp [wCost]

theorem wCost_eq_sum_add (T : List (List Char)) :
    wCost T = (T.map List.length).sum + T.length := by
  induction T with
  | nil => simp [wCost]
  | cons t ts ih => rw [wCost_cons, ih]; simp; omega

/-- Whitespace filling: with a nonzero byte budget, the bytes charged
cover the collected tokens' costs, and if any token was collected the
charge stayed strictly below the budget when the last one was accepted. -/
theorem wsFill_cost (cfg : Config) (hs : cfg.s ≠ 0) : ∀ (f : Nat) (l : List Char) (e b : Nat),
    b + wCost (wsFillF cfg f l e b).toks ≤ (wsFillF cfg f l e b).bytes ∧
    ((wsFillF cfg f l e b).toks ≠ [] → b + wCost (wsFillF cfg f l e b).toks < cfg.s) := by
  intro f
  induction f with
  | zero => intro l e b; exact ⟨by simp [wsFillF, wCost], by simp [wsFillF]⟩
  | succ f ih =>
    intro l e b
    simp only [wsFillF]
    by_cases h0 : l = []
    · rw [if_pos h0]
      exact ⟨by simp [wCost], by simp⟩
    · rw [if_neg h0]
      by_cases h1 : cfg.n ≠ 0 ∧ cfg.n ≤ e
      · rw [if_pos h1]
        by_cases h2 : l.dropWhile isSpc = []
        · rw [if_pos h2]; exact ⟨by simp [wCost], by simp⟩
        · rw [if_neg h2]; exact ⟨by simp [wCost], by simp⟩
      · rw [if_neg h1]
        by_cases h2 : l.dropWhile isSpc = []
        · rw [if_pos h2]; exact ⟨by simp [wCost], by simp⟩
        · rw [if_neg h2]
          by_cases htk : (tokLoop cfg.s b (l.dropWhile isSpc)).1 = true
          · rw [if_pos htk]
            exact ⟨by simpa [wCost] using tokLoop_le cfg.s b (l.dropWhile isSpc), by simp⟩
          · rw [if_neg htk]
            obtain ⟨hb2, hlt⟩ := tokLoop_nohit hs htk
            by_cases h3 : cfg.E = some ((l.dropWhile isSpc).takeWhile nsp)
            · rw [if_pos h3]
              exact ⟨by simpa [wCost] using tokLoop_le cfg.s b (l.dropWhile isSpc), by simp⟩
            · rw [if_neg h3]
              obtain ⟨iha, ihb⟩ := ih ((l.dropWhile isSpc).dropWhile nsp) (e + 1)
                (tokLoop cfg.s b (l.dropWhile isSpc)).2
              constructor
              · simp only [wCost_cons]
                omega
              · intro _
                simp only [wCost_cons]
                by_cases ht0 : (wsFillF cfg f ((l.dropWhile isSpc).dropWhile nsp) (e + 1)
                    (tokLoop cfg.s b (l.dropWhile isSpc)).2).toks = []
                · rw [ht0]
                  simp only [wCost, List.map_nil, List.sum_nil]
                  omega
                · have := ihb ht0
                  omega

/-- Null-mode filling: same byte-cost bound. -/
theorem nullFill_cost (cfg : Config) (hs : cfg.s ≠ 0) (l : List Char) (e b : Nat) :
    b + wCost (nullFill cfg l e b).toks ≤ (nullFill cfg l e b).bytes ∧
    ((nullFill cfg l e b).toks ≠ [] → b + wCost (nullFill cfg l e b).toks < cfg.s) := by
  unfold nullFill
  by_cases h1 : cfg.s ≠ 0 ∧ cfg.s ≤ b + 8 + l.length + 1
  · rw [if_pos h1]
    exact ⟨by simp only [wCost_nil]; omega, by simp⟩
  · rw [if_neg h1]
    have hlt : b + 8 + l.length + 1 < cfg.s := by
      rcases Nat.lt_or_ge (b + 8 + l.length + 1) cfg.s with h | h
      · exact h
      · exact absurd ⟨hs, h⟩ h1
    by_cases h2 : cfg.n ≠ 0 ∧ cfg.n ≤ e
    · rw [if_pos h2]
      exact ⟨by simp only [wCost_nil]; omega, by simp⟩
    · rw [if_neg h2]
      constructor
      · simp only [wCost_cons, wCost_nil]
        omega
      · intro _
        simp only [wCost_cons, wCost_nil]
        omega

/-- `handle_entries` filling cost bound, both delimiter modes. -/
theorem handleFill_cost (cfg : Config) (hs : cfg.s ≠ 0) (l : List Char) (e b : Nat) :
    b + wCost (handleFill cfg l e b).toks ≤ (handleFill cfg l e b).bytes ∧
    ((handleFill cfg l e b).toks ≠ [] → b + wCost (handleFill cfg l e b).toks < cfg.s) := by
  unfold handleFill
  by_cases h0 : cfg.delim0
  · rw [if_pos h0]; exact nullFill_cost cfg hs l e b
  · rw [if_neg h0]; exact wsFill_cost cfg hs (l.length + 1) l e b

/-- Fill-pass cost bound over a whole pending list. -/
theorem fillPass_cost (cfg : Config) (hs : cfg.s ≠ 0) : ∀ (dl : List (List Char)) (e b : Nat),
    b + wCost (fillPassF cfg dl e b).2.2 ≤ (fillPassF cfg dl e b).2.1 ∧
    ((fillPassF cfg dl e b).2.2 ≠ [] → b + wCost (fillPassF cfg dl e b).2.2 < cfg.s) := by
  intro dl
  induction dl with
  | nil => intro e b; exact ⟨by simp [fillPassF, wCost], by simp [fillPassF]⟩
  | cons l ls ih =>
    intro e b
    obtain ⟨ha, hb⟩ := handleFill_cost cfg hs l e b
    obtain ⟨ia, ib⟩ := ih (handleFill cfg l e b).entries (handleFill cfg l e b).bytes
    simp only [fillPassF, wCost_append]
    constructor
    · omega
    · intro hne
      by_cases ht2 : (fillPassF cfg ls (handleFill cfg l e b).entries
          (handleFill cfg l e b).bytes).2.2 = []
      · have ht1 : (handleFill cfg l e b).toks ≠ [] := by
          intro h0
          rw [h0, ht2] at hne
          exact hne rfl
        have h1 := hb ht1
        rw [ht2, wCost_nil]
        omega
      · have h2 := ib ht2
        omega

/-- For any pending list, the collected batch token lengths sum to less
than the byte budget. -/
theorem fillToks_sum_lt (cfg : Config) (hs : cfg.s ≠ 0) (dl : List (List Char)) :
    (((fillToks cfg dl).map List.length).sum) < cfg.s := by
  have h := fillPass_cost cfg hs dl 0 (cmdBytes cfg)
  by_cases ht : (fillPassF cfg dl 0 (cmdBytes cfg)).2.2 = []
  · simp only [fillToks, ht, List.map_nil, List.sum_nil]
    omega
  · have hlt := h.2 ht
    have hw := wCost_eq_sum_add (fillPassF cfg dl 0 (cmdBytes cfg)).2.2
    have hne : (fillPassF cfg dl 0 (cmdBytes cfg)).2.2.length ≠ 0 := by
      simpa [List.length_eq_zero] using ht
    simp only [fillToks]
    omega

/-- Every batch a run executes is the fill pass of some pending list. -/
theorem runLoop_batches (cfg : Config) : ∀ (f : Nat) (d : Option (List Char))
    (ls : List (List Char)) (dn : Bool) (acc : List (List (List Char))) (o : Outcome),
    runLoop cfg f d ls dn acc = some o →
    ∀ T ∈ o.batches, T ∈ acc ∨ ∃ dl, T = fillToks cfg dl := by
  intro f
  induction f with
  | zero => intro d ls dn acc o h; simp [runLoop] at h
  | succ f ih =>
    intro d ls dn acc o h
    simp only [runLoop] at h
    split at h
    · have ho : o = .ok acc.reverse := by injection h with h2; exact h2.symm
      subst ho
      intro T hT
      exact Or.inl (List.mem_reverse.mp hT)
    · split at h
      · exact ih _ _ _ _ _ h
      · split at h
        · have ho : o = .tooLong acc.reverse := by injection h with h2; exact h2.symm
          subst ho
          intro T hT
          exact Or.inl (List.mem_reverse.mp hT)
        · intro T hT
          rcases ih _ _ _ _ _ h T hT with h1 | h2
          · rcases List.mem_cons.mp h1 with h3 | h3
            · exact Or.inr ⟨_, h3⟩
            · exact Or.inl h3
          · exact Or.inr h2

/-- Claim C7: with max-bytes = B configured (`TT.s = B ≠ 0`), the token
byte lengths of every executed batch (separators excluded) sum to
strictly less than B, in both delimiter modes. -/
theorem c7_batch_bytes_lt (cfg : Config) (fuel : Nat) (input : List Char) (o : Outcome)
    (hs : cfg.s ≠ 0) (h : xargsRun cfg fuel input = some o) :
    ∀ T ∈ o.batches, (T.map List.length).sum < cfg.s := by
  intro T hT
  rcases runLoop_batches cfg fuel none (splitLines input) false [] o h T hT with h1 | ⟨dl, rfl⟩
  · simp at h1
  · exact fillToks_sum_lt cfg hs dl

/-- Witness for `c7_batch_bytes_lt`: budget 5, input "ab cd" splits into
two one-token batches of 2 bytes each. -/
theorem c7_batch_bytes_lt_witness :
    xargsRun ⟨false, 0, 5, none, false, [['e']]⟩ 3 ['a', 'b', ' ', 'c', 'd'] =
      some (.ok [[['a', 'b']], [['c', 'd']]]) ∧
    ∀ T ∈ (Outcome.ok [[['a', 'b']], [['c', 'd']]]).batches,
      (T.map List.length).sum < (5 : Nat) :=
  ⟨by decide, c7_batch_bytes_lt ⟨false, 0, 5, none, false, [['e']]⟩ 3
    ['a', 'b', ' ', 'c', 'd'] (.ok [[['a', 'b']], [['c', 'd']]]) (by decide) (by decide)⟩

/-! ### Words compose across lines ending in whitespace -/

theorem wsWords_nil_iff (l : List Char) : wsWords l = [] ↔ l.dropWhile isSpc = [] := by
  rw [wsWords_unfold]
  by_cases h : l.dropWhile isSpc = [] <;> simp [h]

/-- Appending after a chunk whose last character is whitespace splits
the word list. -/
theorem wsWords_append_space : ∀ (k : Nat) (l m : List Char), l.length ≤ k →
    (∃ c, l.getLast? = some c ∧ isSpc c = true) →
    wsWords (l ++ m) = wsWords l ++ wsWords m := by
  intro k
  induction k with
  | zero =>
    intro l m hl hend
    obtain ⟨c, hc, -⟩ := hend
    have h0 : l = [] := List.length_eq_zero.mp (Nat.le_zero.mp hl)
    subst h0
    simp at hc
  | succ k ih =>
    intro l m hl hend
    by_cases hA : l.dropWhile isSpc = []
    · rw [wsWords_eq_nil_of_drop hA, List.nil_append]
      rw [← wsWords_dropWhile (l ++ m), dropWhile_append_of_all m hA, wsWords_dropWhile]
    · obtain ⟨c, hc, hcs⟩ := hend
      have hpre : l = l.takeWhile isSpc ++ l.dropWhile isSpc :=
        (List.takeWhile_append_dropWhile isSpc l).symm
      have hlast1 : (l.dropWhile isSpc).getLast? = some c := by
        rw [← getLast?_suffix (l.takeWhile isSpc) hA hpre, hc]
      have hd1 : (l.dropWhile isSpc).dropWhile nsp ≠ [] := by
        intro h0
        have hall := List.dropWhile_eq_nil_iff.mp h0
        have hmem : c ∈ l.dropWhile isSpc := List.mem_of_mem_getLast? hlast1
        have := hall c hmem
        simp [nsp, hcs] at this
      have hdm : (l ++ m).dropWhile isSpc = l.dropWhile isSpc ++ m :=
        dropWhile_append_of_stop m hA
      rw [wsWords_unfold (l ++ m), if_neg (by rw [hdm]; simp [hA])]
      rw [wsWords_unfold l, if_neg hA]
      rw [hdm, takeWhile_append_of_stop m hd1, dropWhile_append_of_stop m hd1]
      rw [List.cons_append]
      congr 1
      have hlt : ((l.dropWhile isSpc).dropWhile nsp).length ≤ k := by
        obtain ⟨c1, r1, hcr⟩ : ∃ c1 r1, l.dropWhile isSpc = c1 :: r1 := by
          cases hh : l.dropWhile isSpc with
          | nil => exact absurd hh hA
          | cons c1 r1 => exact ⟨c1, r1, rfl⟩
        have hc1 : isSpc c1 = false := dropWhile_head_false hcr
        have h1 : ((l.dropWhile isSpc).dropWhile nsp).length < (l.dropWhile isSpc).length := by
          rw [hcr, List.dropWhile_cons_of_pos (by simp [nsp, hc1])]
          have := length_dropWhile_le' nsp r1
          simp only [List.length_cons]
          omega
        have h2 : (l.dropWhile isSpc).length ≤ l.length := length_dropWhile_le' _ _
        omega
      have hend2 : ∃ c2, ((l.dropWhile isSpc).dropWhile nsp).getLast? = some c2 ∧
          isSpc c2 = true := by
        refine ⟨c, ?_, hcs⟩
        have hpre2 : l.dropWhile isSpc =
            (l.dropWhile isSpc).takeWhile nsp ++ (l.dropWhile isSpc).dropWhile nsp :=
          (List.takeWhile_append_dropWhile nsp (l.dropWhile isSpc)).symm
        rw [← getLast?_suffix ((l.dropWhile isSpc).takeWhile nsp) hd1 hpre2, hlast1]
      exact ih ((l.dropWhile isSpc).dropWhile nsp) m hlt hend2

/-- The words of the `getdelim` chunks concatenate to the words of the
whole stream. -/
theorem joinW_splitLinesF : ∀ (f : Nat) (l : List Char), l.length ≤ f →
    joinW (splitLinesF f l) = wsWords l := by
  intro f
  induction f with
  | zero =>
    intro l hl
    have h0 : l = [] := List.length_eq_zero.mp (Nat.le_zero.mp hl)
    subst h0
    rfl
  | succ f ih =>
    intro l hl
    by_cases h0 : l = []
    · subst h0; rfl
    · simp only [splitLinesF, if_neg h0]
      cases hd : l.dropWhile notNl with
      | nil =>
        have hT : l.takeWhile notNl = l := by
          conv_rhs => rw [← List.takeWhile_append_dropWhile notNl l]
          rw [hd, List.append_nil]
        simp [joinW, hT]
      | cons c rs =>
        have hc : c = '\n' := by
          have hcf := dropWhile_head_false hd
          simpa [notNl] using hcf
        subst hc
        have hsplit : l = (l.takeWhile notNl ++ ['\n']) ++ rs := by
          conv_lhs => rw [← List.takeWhile_append_dropWhile notNl l]
          rw [hd, List.append_assoc]
          rfl
        have hlen : rs.length ≤ f := by
          have h1 : l.length = (l.takeWhile notNl).length + ('\n' :: rs).length := by
            conv_lhs => rw [← List.takeWhile_append_dropWhile notNl l]
            rw [hd, List.length_append]
          simp only [List.length_cons] at h1
          omega
        simp only [joinW, List.map_cons, List.flatten_cons]
        have hih := ih rs hlen
        simp only [joinW] at hih
        rw [hih]
        conv_rhs => rw [hsplit]
        rw [wsWords_append_space (l.takeWhile notNl ++ ['\n']).length
          (l.takeWhile notNl ++ ['\n']) rs le_rfl
          ⟨'\n', List.getLast?_concat _, by decide⟩]

theorem joinW_splitLines (input : List Char) :
    joinW (splitLines input) = wsWords input :=
  joinW_splitLinesF input.length input le_rfl

/-! ### Claim C4: oversized token -/

/-- A line with no words is fully consumed by the counter without
touching the counters (entry count 0 at batch start). -/
theorem handleCount_wordless (cfg : Config) (hd0 : cfg.delim0 = false) (l : List Char)
    (b : Nat) (hw : wsWords l = []) :
    handleCount cfg l 0 b = ⟨.needMore, 0, b⟩ := by
  have hd : l.dropWhile isSpc = [] := (wsWords_nil_iff l).mp hw
  simp only [handleCount, if_neg (show ¬ cfg.delim0 = true by simp [hd0])]
  simp only [wsCountF]
  by_cases h0 : l = []
  · rw [if_pos h0]
  · rw [if_neg h0, if_neg (fun hc => hc.1 (Nat.le_zero.mp hc.2)), if_pos hd]

/-- At batch start (entry count 0), a first token at least as long as
the byte budget trips the inner loop and is returned as leftover with
the entry count still 0. -/
theorem handleCount_bigtok (cfg : Config) (hd0 : cfg.delim0 = false) (hs : cfg.s ≠ 0)
    (l : List Char) (b : Nat) (t : List Char) (rest : List (List Char))
    (hw : wsWords l = t :: rest) (hbig : cfg.s ≤ t.length) :
    ∃ b2, handleCount cfg l 0 b = ⟨.leftover (l.dropWhile isSpc), 0, b2⟩ := by
  have hA : l.dropWhile isSpc ≠ [] := by
    intro h0
    rw [wsWords_eq_nil_of_drop h0] at hw
    simp at hw
  have hl0 : l ≠ [] := by
    intro h0
    subst h0
    simp at hA
  have ht : (l.dropWhile isSpc).takeWhile nsp = t := by
    rw [wsWords_unfold, if_neg hA] at hw
    exact (List.cons.inj hw).1
  refine ⟨(tokLoop cfg.s b (l.dropWhile isSpc)).2, ?_⟩
  simp only [handleCount, if_neg (show ¬ cfg.delim0 = true by simp [hd0])]
  simp only [wsCountF]
  rw [if_neg hl0, if_neg (fun hc => hc.1 (Nat.le_zero.mp hc.2)), if_neg hA,
    if_pos (tokLoop_hit hs b _ (by rw [ht]; omega))]

/-- If the first pending word is at least as long as the byte budget,
the read loop ends with a leftover fragment and zero counted entries. -/
theorem readLoopF_bigtok (cfg : Config) (hd0 : cfg.delim0 = false) (hs : cfg.s ≠ 0)
    (t : List Char) (rest : List (List Char)) (hbig : cfg.s ≤ t.length) :
    ∀ (f : Nat) (d : Option (List Char)) (ls dl : List (List Char)) (b : Nat),
    2 * ls.length + 1 + dCost d ≤ f →
    pendW d ls = t :: rest →
    ∃ l2 ls2 dl2 b2, readLoopF cfg f d ls dl 0 b = ⟨some l2, ls2, dl2, 0, b2, false⟩ := by
  intro f
  induction f with
  | zero => intro d ls dl b h hp; omega
  | succ f ih =>
    intro d ls dl b h hp
    cases d with
    | none =>
      cases ls with
      | nil => simp [pendW, optW, joinW] at hp
      | cons l ls2 =>
        simp only [readLoopF]
        refine ih (some l) ls2 dl b ?_ ?_
        · simp only [dCost, List.length_cons] at h ⊢
          omega
        · simpa [pendW, optW, joinW] using hp
    | some dd =>
      simp only [dCost] at h
      cases hww : wsWords dd with
      | nil =>
        have hcw := handleCount_wordless cfg hd0 dd b hww
        simp only [readLoopF, hcw]
        refine ih none ls (dl ++ [dd]) b ?_ ?_
        · simp only [dCost]
          omega
        · rw [← hp]
          simp [pendW, optW, hww]
      | cons t0 rest0 =>
        have hp2 : t0 :: (rest0 ++ joinW ls) = t :: rest := by
          rw [← List.cons_append, ← hww]
          simpa [pendW, optW] using hp
        have ht0 : t0 = t := (List.cons.inj hp2).1
        subst ht0
        obtain ⟨b2, hcb⟩ := handleCount_bigtok cfg hd0 hs dd b t0 rest0 hww hbig
        simp only [readLoopF, hcb]
        exact ⟨dd.dropWhile isSpc, ls, dl ++ [dd], b2, rfl⟩

/-- Claim C4 counterexample: with max-bytes 5, input "ab cdefg" contains
the token "cdefg" of length 5 ≥ 5, yet a batch (with token "ab") executes
before the fatal "argument too long" exit - the claim's "before any batch
executes" fails for oversized tokens that are not first. -/
theorem c4_oversize_after_batch_cex :
    xargsRun ⟨false, 0, 5, none, false, [['e']]⟩ 3
      ['a', 'b', ' ', 'c', 'd', 'e', 'f', 'g'] = some (.tooLong [[['a', 'b']]]) ∧
    (Outcome.tooLong [[['a', 'b']]]).batches ≠ [] := by
  decide

/-- Claim C4 (amended): in whitespace mode without the suppress-empty
flag, if the FIRST token of the input has byte length at least the
configured max-bytes budget B ≠ 0, the run terminates immediately with
the fatal "argument too long" diagnostic (xargs.c:169) and no batch
executes; an oversized token that appears later instead becomes the
first token of a later batch, so the earlier batches still execute
before the same fatal exit (see the counterexample). -/
theorem c4_first_token_too_long : ∀ (cfg : Config) (fuel : Nat) (input t : List Char)
    (rest : List (List Char)),
    cfg.delim0 = false → cfg.rFlag = false → cfg.s ≠ 0 →
    wsWords input = t :: rest → cfg.s ≤ t.length →
    xargsRun cfg (fuel + 1) input = some (.tooLong []) := by
  intro cfg fuel input t rest hd0 hr hs hw hbig
  have hpend : pendW none (splitLines input) = t :: rest := by
    simp only [pendW, optW, List.nil_append]
    rw [joinW_splitLines input, hw]
  obtain ⟨l2, ls2, dl2, b2, ho⟩ := readLoopF_bigtok cfg hd0 hs t rest hbig
    (2 * (splitLines input).length + 3) none (splitLines input) [] (cmdBytes cfg)
    (by simp [dCost]) hpend
  show runLoop cfg (fuel + 1) none (splitLines input) false [] = some (.tooLong [])
  simp only [runLoop, readLoop]
  rw [ho]
  simp [hr]

/-- Witness for `c4_first_token_too_long`: budget 3, input "abcd". -/
theorem c4_first_token_too_long_witness :
    xargsRun ⟨false, 0, 3, none, false, [['e']]⟩ 1 ['a', 'b', 'c', 'd'] =
      some (.tooLong []) :=
  c4_first_token_too_long ⟨false, 0, 3, none, false, [['e']]⟩ 0 ['a', 'b', 'c', 'd']
    ['a', 'b', 'c', 'd'] [] rfl rfl (by decide) (by decide) (by decide)

/-! ### Word-consumption helper -/

/-- After a word and its trailing separator run are consumed, strictly
fewer characters remain. -/
theorem rest_length_lt {l : List Char} (h2 : l.dropWhile isSpc ≠ []) :
    ((l.dropWhile isSpc).dropWhile nsp).length < l.length := by
  obtain ⟨c1, r1, hcr⟩ : ∃ c1 r1, l.dropWhile isSpc = c1 :: r1 := by
    cases hh : l.dropWhile isSpc with
    | nil => exact absurd hh h2
    | cons c1 r1 => exact ⟨c1, r1, rfl⟩
  have hc1 : isSpc c1 = false := dropWhile_head_false hcr
  have h1 : ((l.dropWhile isSpc).dropWhile nsp).length < (l.dropWhile isSpc).length := by
    rw [hcr, List.dropWhile_cons_of_pos (by simp [nsp, hc1])]
    have := length_dropWhile_le' nsp r1
    simp only [List.length_cons]
    omega
  have hle : (l.dropWhile isSpc).length ≤ l.length := length_dropWhile_le' _ _
  omega

/-! ### Claim C8: stop string -/

theorem takeWhile_append_all {p : α → Bool} {A : List α} (B : List α)
    (h : ∀ a ∈ A, p a = true) :
    (A ++ B).takeWhile p = A ++ B.takeWhile p := by
  induction A with
  | nil => simp
  | cons a A ih =>
    have ha := h a (List.mem_cons_self a A)
    simp only [List.cons_append, List.takeWhile_cons_of_pos ha]
    rw [ih (fun x hx => h x (List.mem_cons_of_mem _ hx))]

theorem dropWhile_ne_nil_of_mem {p : α → Bool} {A : List α} {a : α}
    (ha : a ∈ A) (hpa : p a = false) : A.dropWhile p ≠ [] := by
  intro h0
  have hq := List.dropWhile_eq_nil_iff.mp h0 a ha
  rw [hpa] at hq
  exact Bool.false_ne_true hq

/-- With no byte and entry budget, a line that does not contain the stop
string is fully consumed with all its words collected. -/
theorem wsFill_noStop (cfg : Config) (hn : cfg.n = 0) (hs : cfg.s = 0) (S : List Char)
    (hE : cfg.E = some S) : ∀ (f : Nat) (l : List Char) (e b : Nat), l.length < f →
    S ∉ wsWords l →
    ∃ b2, wsFillF cfg f l e b = ⟨.needMore, e + (wsWords l).length, b2, wsWords l⟩ := by
  intro f
  induction f with
  | zero => intro l e b h hS; omega
  | succ f ih =>
    intro l e b h hS
    simp only [wsFillF]
    by_cases h0 : l = []
    · rw [if_pos h0]
      subst h0
      exact ⟨b, by simp [wsWords_nil]⟩
    · rw [if_neg h0, if_neg (by rw [hn]; simp)]
      by_cases h2 : l.dropWhile isSpc = []
      · rw [if_pos h2, wsWords_eq_nil_of_drop h2]
        exact ⟨b, by simp⟩
      · rw [if_neg h2]
        have htk : tokLoop cfg.s b (l.dropWhile isSpc) =
            (false, b + ((l.dropWhile isSpc).takeWhile nsp).length + 1) := by
          rw [hs]
          exact tokLoop_zero b _
        rw [htk, if_neg (by simp)]
        have hwl : wsWords l = (l.dropWhile isSpc).takeWhile nsp ::
            wsWords ((l.dropWhile isSpc).dropWhile nsp) := by
          rw [wsWords_unfold l, if_neg h2]
        have htokS : (l.dropWhile isSpc).takeWhile nsp ≠ S := by
          intro hq
          apply hS
          rw [hwl, hq]
          exact List.mem_cons_self _ _
        rw [if_neg (show ¬ cfg.E = some ((l.dropWhile isSpc).takeWhile nsp) by
          rw [hE]; intro hq; injection hq with hq2; exact htokS hq2.symm)]
        have hS' : S ∉ wsWords ((l.dropWhile isSpc).dropWhile nsp) := by
          intro hq
          exact hS (by rw [hwl]; exact List.mem_cons_of_mem _ hq)
        obtain ⟨b2, hrec⟩ := ih ((l.dropWhile isSpc).dropWhile nsp) (e + 1)
          (b + ((l.dropWhile isSpc).takeWhile nsp).length + 1)
          (by have := rest_length_lt h2; omega) hS'
        rw [hrec]
        refine ⟨b2, ?_⟩
        rw [hwl]
        simp only [List.length_cons, FOut.mk.injEq]
        repeat' apply And.intro
        all_goals first | trivial | omega

/-- With no byte and entry budget, a line containing the stop string
signals the stop and collects exactly the words before the match. -/
theorem wsFill_stop (cfg : Config) (hn : cfg.n = 0) (hs : cfg.s = 0) (S : List Char)
    (hE : cfg.E = some S) : ∀ (f : Nat) (l : List Char) (e b : Nat), l.length < f →
    S ∈ wsWords l →
    ∃ b2, wsFillF cfg f l e b =
      ⟨.stopStr, e + ((wsWords l).takeWhile (fun w => w != S)).length, b2,
       (wsWords l).takeWhile (fun w => w != S)⟩ := by
  intro f
  induction f with
  | zero => intro l e b h hS; omega
  | succ f ih =>
    intro l e b h hS
    simp only [wsFillF]
    by_cases h0 : l = []
    · subst h0
      rw [wsWords_nil] at hS
      simp at hS
    · rw [if_neg h0, if_neg (by rw [hn]; simp)]
      by_cases h2 : l.dropWhile isSpc = []
      · rw [wsWords_eq_nil_of_drop h2] at hS
        simp at hS
      · rw [if_neg h2]
        have htk : tokLoop cfg.s b (l.dropWhile isSpc) =
            (false, b + ((l.dropWhile isSpc).takeWhile nsp).length + 1) := by
          rw [hs]
          exact tokLoop_zero b _
        rw [htk, if_neg (by simp)]
        have hwl : wsWords l = (l.dropWhile isSpc).takeWhile nsp ::
            wsWords ((l.dropWhile isSpc).dropWhile nsp) := by
          rw [wsWords_unfold l, if_neg h2]
        by_cases htok : (l.dropWhile isSpc).takeWhile nsp = S
        · rw [if_pos (by rw [hE, htok])]
          refine ⟨b + ((l.dropWhile isSpc).takeWhile nsp).length + 1, ?_⟩
          rw [hwl, htok]
          rw [List.takeWhile_cons_of_neg (by simp)]
          simp
        · rw [if_neg (show ¬ cfg.E = some ((l.dropWhile isSpc).takeWhile nsp) by
            rw [hE]; intro hq; injection hq with hq2; exact htok hq2.symm)]
          have hS' : S ∈ wsWords ((l.dropWhile isSpc).dropWhile nsp) := by
            rw [hwl] at hS
            rcases List.mem_cons.mp hS with hq | hq
            · exact absurd hq.symm htok
            · exact hq
          obtain ⟨b2, hrec⟩ := ih ((l.dropWhile isSpc).dropWhile nsp) (e + 1)
            (b + ((l.dropWhile isSpc).takeWhile nsp).length + 1)
            (by have := rest_length_lt h2; omega) hS'
          rw [hrec]
          refine ⟨b2, ?_⟩
          rw [hwl]
          rw [List.takeWhile_cons_of_pos (by simp [htok])]
          simp only [List.length_cons, FOut.mk.injEq]
          repeat' apply And.intro
          all_goals first | trivial | omega

theorem handleCount_noStop (cfg : Config) (hd0 : cfg.delim0 = false) (hn : cfg.n = 0)
    (hs : cfg.s = 0) (S : List Char) (hE : cfg.E = some S) (l : List Char) (e b : Nat)
    (hS : S ∉ wsWords l) :
    ∃ b2, handleCount cfg l e b = ⟨.needMore, e + (wsWords l).length, b2⟩ := by
  obtain ⟨b2, hf⟩ := wsFill_noStop cfg hn hs S hE (l.length + 1) l e b (by omega) hS
  obtain ⟨h1, -⟩ := handleAgree cfg l e b
  refine ⟨b2, ?_⟩
  rw [h1]
  simp only [handleFill, if_neg (show ¬ cfg.delim0 = true by simp [hd0])]
  rw [hf]
  rfl

theorem handleFill_noStop (cfg : Config) (hd0 : cfg.delim0 = false) (hn : cfg.n = 0)
    (hs : cfg.s = 0) (S : List Char) (hE : cfg.E = some S) (l : List Char) (e b : Nat)
    (hS : S ∉ wsWords l) :
    ∃ b2, handleFill cfg l e b = ⟨.needMore, e + (wsWords l).length, b2, wsWords l⟩ := by
  obtain ⟨b2, hf⟩ := wsFill_noStop cfg hn hs S hE (l.length + 1) l e b (by omega) hS
  exact ⟨b2, by simp only [handleFill, if_neg (show ¬ cfg.delim0 = true by simp [hd0])]; exact hf⟩

theorem handleCount_stop (cfg : Config) (hd0 : cfg.delim0 = false) (hn : cfg.n = 0)
    (hs : cfg.s = 0) (S : List Char) (hE : cfg.E = some S) (l : List Char) (e b : Nat)
    (hS : S ∈ wsWords l) :
    ∃ b2, handleCount cfg l e b =
      ⟨.stopStr, e + ((wsWords l).takeWhile (fun w => w != S)).length, b2⟩ := by
  obtain ⟨b2, hf⟩ := wsFill_stop cfg hn hs S hE (l.length + 1) l e b (by omega) hS
  obtain ⟨h1, -⟩ := handleAgree cfg l e b
  refine ⟨b2, ?_⟩
  rw [h1]
  simp only [handleFill, if_neg (show ¬ cfg.delim0 = true by simp [hd0])]
  rw [hf]
  rfl

theorem handleFill_stop (cfg : Config) (hd0 : cfg.delim0 = false) (hn : cfg.n = 0)
    (hs : cfg.s = 0) (S : List Char) (hE : cfg.E = some S) (l : List Char) (e b : Nat)
    (hS : S ∈ wsWords l) :
    ∃ b2, handleFill cfg l e b =
      ⟨.stopStr, e + ((wsWords l).takeWhile (fun w => w != S)).length, b2,
       (wsWords l).takeWhile (fun w => w != S)⟩ := by
  obtain ⟨b2, hf⟩ := wsFill_stop cfg hn hs S hE (l.length + 1) l e b (by omega) hS
  exact ⟨b2, by simp only [handleFill, if_neg (show ¬ cfg.delim0 = true by simp [hd0])]; exact hf⟩

/-- With the stop string present among the pending words, the read loop
ends the batch at the match with `done` incremented; the retained lines
refill to exactly the words before the first match. -/
theorem readLoopF_stop (cfg : Config) (hd0 : cfg.delim0 = false) (hn : cfg.n = 0)
    (hs : cfg.s = 0) (S : List Char) (hE : cfg.E = some S) :
    ∀ (f : Nat) (d : Option (List Char)) (ls dl : List (List Char)) (e b : Nat),
    2 * ls.length + 1 + dCost d ≤ f →
    S ∈ pendW d ls →
    ∃ ls2 dl2 b2,
      readLoopF cfg f d ls dl e b =
        ⟨none, ls2, dl ++ dl2,
         e + ((pendW d ls).takeWhile (fun w => w != S)).length, b2, true⟩ ∧
      ∀ (e0 b0 : Nat), ∃ b3, fillPassF cfg dl2 e0 b0 =
        (e0 + ((pendW d ls).takeWhile (fun w => w != S)).length, b3,
         (pendW d ls).takeWhile (fun w => w != S)) := by
  intro f
  induction f with
  | zero => intro d ls dl e b h hS; omega
  | succ f ih =>
    intro d ls dl e b h hS
    cases d with
    | none =>
      cases ls with
      | nil => simp [pendW, optW, joinW] at hS
      | cons l ls2 =>
        have hpe : pendW (some l) ls2 = pendW none (l :: ls2) := by
          simp [pendW, optW, joinW]
        simp only [readLoopF]
        obtain ⟨ls3, dl2, b2, hrl, hfill⟩ := ih (some l) ls2 dl e b
          (by simp only [dCost, List.length_cons] at h ⊢; omega) (by rw [hpe]; exact hS)
        rw [hpe] at hrl hfill
        exact ⟨ls3, dl2, b2, hrl, hfill⟩
    | some dd =>
      simp only [dCost] at h
      by_cases hS1 : S ∈ wsWords dd
      · obtain ⟨b2, hcs⟩ := handleCount_stop cfg hd0 hn hs S hE dd e b hS1
        simp only [readLoopF, hcs]
        have hdw : (wsWords dd).dropWhile (fun w => w != S) ≠ [] :=
          dropWhile_ne_nil_of_mem hS1 (by simp)
        have htp : (pendW (some dd) ls).takeWhile (fun w => w != S) =
            (wsWords dd).takeWhile (fun w => w != S) := by
          simp only [pendW, optW]
          exact takeWhile_append_of_stop _ hdw
        refine ⟨ls, [dd], b2, ?_, ?_⟩
        · rw [htp]
        · intro e0 b0
          obtain ⟨b4, hfs⟩ := handleFill_stop cfg hd0 hn hs S hE dd e0 b0 hS1
          refine ⟨b4, ?_⟩
          simp only [fillPassF, hfs]
          rw [htp]
          simp
      · obtain ⟨b2, hcn⟩ := handleCount_noStop cfg hd0 hn hs S hE dd e b hS1
        simp only [readLoopF, hcn]
        have hS2 : S ∈ pendW none ls := by
          simp only [pendW, optW, List.nil_append]
          rcases List.mem_append.mp (show S ∈ wsWords dd ++ joinW ls from by
            simpa [pendW, optW] using hS) with hq | hq
          · exact absurd hq hS1
          · exact hq
        have hall : ∀ w ∈ wsWords dd, (w != S) = true := by
          intro w hw
          simp only [bne_iff_ne, ne_eq]
          intro hq
          exact hS1 (hq ▸ hw)
        have htp : (pendW (some dd) ls).takeWhile (fun w => w != S) =
            wsWords dd ++ (pendW none ls).takeWhile (fun w => w != S) := by
          simp only [pendW, optW, List.nil_append]
          exact takeWhile_append_all _ hall
        obtain ⟨ls3, dl2, b3, hrl, hfill⟩ := ih none ls (dl ++ [dd])
          (e + (wsWords dd).length) b2 (by simp only [dCost]; omega) hS2
        refine ⟨ls3, dd :: dl2, b3, ?_, ?_⟩
        · rw [hrl, htp]
          simp only [List.append_assoc, List.cons_append, List.nil_append,
            List.length_append, RLOut.mk.injEq]
          repeat' apply And.intro
          all_goals first | trivial | omega
        · intro e0 b0
          obtain ⟨b4, hfn⟩ := handleFill_noStop cfg hd0 hn hs S hE dd e0 b0 hS1
          obtain ⟨b5, hfp⟩ := hfill (e0 + (wsWords dd).length) b4
          refine ⟨b5, ?_⟩
          simp only [fillPassF, hfn, hfp, htp]
          simp only [List.length_append, Prod.mk.injEq]
          repeat' apply And.intro
          all_goals first | trivial | omega

/-- Claim C8: with stop string "END" and token stream a, b, END, c, d,
exactly one batch executes, its tokens are a and b; the stop token and
the tokens after it never enter an argument vector, and no further batch
starts. -/
theorem c8_stop_string : ∀ (cmd : List (List Char)) (input : List Char),
    wsWords input = [['a'], ['b'], ['E', 'N', 'D'], ['c'], ['d']] →
    xargsRun ⟨false, 0, 0, some ['E', 'N', 'D'], false, cmd⟩ 2 input =
      some (.ok [[['a'], ['b']]]) := by
  intro cmd input hw
  have hpend : pendW none (splitLines input) =
      [['a'], ['b'], ['E', 'N', 'D'], ['c'], ['d']] := by
    simp only [pendW, optW, List.nil_append]
    rw [joinW_splitLines input, hw]
  obtain ⟨ls2, dl2, b2, hrl, hfill⟩ :=
    readLoopF_stop ⟨false, 0, 0, some ['E', 'N', 'D'], false, cmd⟩ rfl rfl rfl
      ['E', 'N', 'D'] rfl (2 * (splitLines input).length + 3) none (splitLines input) [] 0
      (cmdBytes ⟨false, 0, 0, some ['E', 'N', 'D'], false, cmd⟩)
      (by simp [dCost]) (by rw [hpend]; decide)
  have htake : (pendW none (splitLines input)).takeWhile
      (fun w => w != ['E', 'N', 'D']) = [['a'], ['b']] := by
    rw [hpend]
    decide
  rw [htake] at hrl
  obtain ⟨b3, hfl⟩ := hfill 0 (cmdBytes ⟨false, 0, 0, some ['E', 'N', 'D'], false, cmd⟩)
  rw [htake] at hfl
  have hft : fillToks ⟨false, 0, 0, some ['E', 'N', 'D'], false, cmd⟩ dl2 =
      [[ 'a' ], ['b']] := by
    simp only [fillToks]
    rw [hfl]
  show runLoop ⟨false, 0, 0, some ['E', 'N', 'D'], false, cmd⟩ 2 none
    (splitLines input) false [] = some (.ok [[['a'], ['b']]])
  simp only [runLoop, readLoop]
  rw [hrl]
  simp [hft, runLoop]

/-- Witness for `c8_stop_string`: input "a b END c d". -/
theorem c8_stop_string_witness :
    wsWords ['a', ' ', 'b', ' ', 'E', 'N', 'D', ' ', 'c', ' ', 'd'] =
      [['a'], ['b'], ['E', 'N', 'D'], ['c'], ['d']] ∧
    xargsRun ⟨false, 0, 0, some ['E', 'N', 'D'], false, [['e']]⟩ 2
      ['a', ' ', 'b', ' ', 'E', 'N', 'D', ' ', 'c', ' ', 'd'] =
      some (.ok [[['a'], ['b']]]) :=
  ⟨by decide, c8_stop_string [['e']] ['a', ' ', 'b', ' ', 'E', 'N', 'D', ' ', 'c', ' ', 'd']
    (by decide)⟩

/-! ### Claim C6: max-entries batching -/

/-- The inner loop does not trip when the budget is unset or strictly
beyond the full token cost, combining `tokLoop_zero` and
`tokLoop_false`. -/
theorem tokLoop_safe {slim b : Nat} {t : List Char}
    (h : slim = 0 ∨ b + (t.takeWhile nsp).length + 1 < slim) :
    tokLoop slim b t = (false, b + (t.takeWhile nsp).length + 1) := by
  rcases h with h | h
  · subst h
    exact tokLoop_zero b t
  · exact tokLoop_false (by omega) b t h

theorem joinW_cons (l : List Char) (ls : List (List Char)) :
    joinW (l :: ls) = wsWords l ++ joinW ls := by
  simp [joinW]

/-- With max-entries set, no stop string, and a byte budget that is
unset or beyond the line's full word cost, the filling tokenizer
collects words up to the remaining quota, classifies its result by
`C6Res`, and charges at most the line's word cost. -/
theorem wsFill_nlimit (cfg : Config) (hE : cfg.E = none)
    (hn : cfg.n ≠ 0) : ∀ (f : Nat) (l : List Char) (e b : Nat), l.length < f →
    e ≤ cfg.n → cfg.s = 0 ∨ b + wCost (wsWords l) < cfg.s →
    ∃ res b2,
      wsFillF cfg f l e b = ⟨res, min cfg.n (e + (wsWords l).length), b2,
        (wsWords l).take (cfg.n - e)⟩ ∧
      C6Res cfg res ((wsWords l).drop (cfg.n - e)) (min cfg.n (e + (wsWords l).length)) ∧
      b2 ≤ b + wCost (wsWords l) := by
  intro f
  induction f with
  | zero => intro l e b h he _; omega
  | succ f ih =>
    intro l e b h he hsafe
    simp only [wsFillF]
    by_cases h0 : l = []
    · rw [if_pos h0]
      subst h0
      refine ⟨.needMore, b, ?_, Or.inl ⟨rfl, by simp [wsWords_nil]⟩, Nat.le_add_right b _⟩
      rw [wsWords_nil]
      simp only [List.length_nil, List.take_nil, FOut.mk.injEq]
      repeat' apply And.intro
      all_goals first | trivial | omega
    · rw [if_neg h0]
      by_cases hne : cfg.n ≤ e
      · rw [if_pos ⟨hn, hne⟩]
        have hee : e = cfg.n := by omega
        by_cases h2 : l.dropWhile isSpc = []
        · rw [if_pos h2]
          refine ⟨.allConsumed, b, ?_, Or.inr (Or.inl ⟨rfl, ?_, ?_⟩), Nat.le_add_right b _⟩
          · rw [wsWords_eq_nil_of_drop h2]
            simp only [List.length_nil, List.take_nil, FOut.mk.injEq]
            repeat' apply And.intro
            all_goals first | trivial | omega
          · rw [wsWords_eq_nil_of_drop h2]
            simp
          · rw [wsWords_eq_nil_of_drop h2]
            simp only [List.length_nil]
            omega
        · rw [if_neg h2]
          have hw : wsWords l ≠ [] := fun hq => h2 ((wsWords_nil_iff l).mp hq)
          refine ⟨.leftover (l.dropWhile isSpc), b, ?_,
            Or.inr (Or.inr ⟨l.dropWhile isSpc, rfl, ?_, ?_, ?_⟩), Nat.le_add_right b _⟩
          · have hnn : cfg.n - e = 0 := by omega
            rw [hnn, List.take_zero]
            simp only [FOut.mk.injEq]
            repeat' apply And.intro
            all_goals first | trivial | omega
          · rw [wsWords_dropWhile]
            have hnn : cfg.n - e = 0 := by omega
            rw [hnn, List.drop_zero]
          · have hnn : cfg.n - e = 0 := by omega
            rw [hnn, List.drop_zero]
            exact hw
          · have : 1 ≤ (wsWords l).length := by
              cases hq : wsWords l with
              | nil => exact absurd hq hw
              | cons x xs => simp
            omega
      · rw [if_neg (fun hc => hne hc.2)]
        have helt : e < cfg.n := by omega
        by_cases h2 : l.dropWhile isSpc = []
        · rw [if_pos h2]
          refine ⟨.needMore, b, ?_, Or.inl ⟨rfl, ?_⟩, Nat.le_add_right b _⟩
          · rw [wsWords_eq_nil_of_drop h2]
            simp only [List.length_nil, List.take_nil, FOut.mk.injEq]
            repeat' apply And.intro
            all_goals first | trivial | omega
          · rw [wsWords_eq_nil_of_drop h2]
            simp
        · rw [if_neg h2]
          have hwl : wsWords l = (l.dropWhile isSpc).takeWhile nsp ::
              wsWords ((l.dropWhile isSpc).dropWhile nsp) := by
            rw [wsWords_unfold l, if_neg h2]
          have hcW : wCost (wsWords l) = ((l.dropWhile isSpc).takeWhile nsp).length + 1 +
              wCost (wsWords ((l.dropWhile isSpc).dropWhile nsp)) := by
            rw [hwl, wCost_cons]
          have htk : tokLoop cfg.s b (l.dropWhile isSpc) =
              (false, b + ((l.dropWhile isSpc).takeWhile nsp).length + 1) :=
            tokLoop_safe (by
              rcases hsafe with hq | hq
              · exact Or.inl hq
              · exact Or.inr (by omega))
          rw [htk, if_neg (by simp), if_neg (by rw [hE]; simp)]
          obtain ⟨res, b2, hrec, hcl, hb2⟩ := ih ((l.dropWhile isSpc).dropWhile nsp) (e + 1)
            (b + ((l.dropWhile isSpc).takeWhile nsp).length + 1)
            (by have := rest_length_lt h2; omega) (by omega)
            (by
              rcases hsafe with hq | hq
              · exact Or.inl hq
              · exact Or.inr (by omega))
          rw [hrec]
          refine ⟨res, b2, ?_, ?_, by omega⟩
          · rw [hwl]
            have hsub : cfg.n - e = (cfg.n - (e + 1)) + 1 := by omega
            rw [hsub, List.take_succ_cons]
            simp only [List.length_cons, FOut.mk.injEq]
            repeat' apply And.intro
            all_goals first | trivial | omega
          · rw [hwl]
            have hsub : cfg.n - e = (cfg.n - (e + 1)) + 1 := by omega
            rw [hsub, List.drop_succ_cons]
            have heq : min cfg.n (e + (((l.dropWhile isSpc).takeWhile nsp ::
                wsWords ((l.dropWhile isSpc).dropWhile nsp)).length)) =
                min cfg.n ((e + 1) + (wsWords ((l.dropWhile isSpc).dropWhile nsp)).length) := by
              simp only [List.length_cons]
              omega
            rw [heq]
            exact hcl

/-- `handle_entries` in the entry-limited regime: fill and count agree,
collecting/counting words up to the remaining quota. -/
theorem handle_nlimit (cfg : Config) (hd0 : cfg.delim0 = false)
    (hE : cfg.E = none) (hn : cfg.n ≠ 0) (l : List Char) (e b : Nat) (he : e ≤ cfg.n)
    (hsafe : cfg.s = 0 ∨ b + wCost (wsWords l) < cfg.s) :
    ∃ res b2,
      handleFill cfg l e b = ⟨res, min cfg.n (e + (wsWords l).length), b2,
        (wsWords l).take (cfg.n - e)⟩ ∧
      handleCount cfg l e b = ⟨res, min cfg.n (e + (wsWords l).length), b2⟩ ∧
      C6Res cfg res ((wsWords l).drop (cfg.n - e)) (min cfg.n (e + (wsWords l).length)) ∧
      b2 ≤ b + wCost (wsWords l) := by
  obtain ⟨res, b2, hf, hcl, hb2⟩ :=
    wsFill_nlimit cfg hE hn (l.length + 1) l e b (by omega) he hsafe
  obtain ⟨h1, -⟩ := handleAgree cfg l e b
  refine ⟨res, b2, ?_, ?_, hcl, hb2⟩
  · simp only [handleFill, if_neg (show ¬ cfg.delim0 = true by simp [hd0])]
    exact hf
  · rw [h1]
    simp only [handleFill, if_neg (show ¬ cfg.delim0 = true by simp [hd0])]
    rw [hf]
    rfl

/-- The fill pass in the entry-limited regime collects the first
(quota - entries) pending words. -/
theorem fillPass_nlimit (cfg : Config) (hd0 : cfg.delim0 = false)
    (hE : cfg.E = none) (hn : cfg.n ≠ 0) : ∀ (dl : List (List Char)) (e b : Nat),
    e ≤ cfg.n → cfg.s = 0 ∨ b + wCost (joinW dl) < cfg.s →
    (fillPassF cfg dl e b).2.2 = (joinW dl).take (cfg.n - e) := by
  intro dl
  induction dl with
  | nil =>
    intro e b he _
    simp [fillPassF, joinW]
  | cons l ls ih =>
    intro e b he hsafe
    have hcj : wCost (joinW (l :: ls)) = wCost (wsWords l) + wCost (joinW ls) := by
      rw [joinW_cons, wCost_append]
    obtain ⟨res, b2, hf, -, -, hb2⟩ := handle_nlimit cfg hd0 hE hn l e b he
      (by
        rcases hsafe with hq | hq
        · exact Or.inl hq
        · exact Or.inr (by omega))
    simp only [fillPassF, hf]
    rw [ih (min cfg.n (e + (wsWords l).length)) b2 (by omega)
      (by
        rcases hsafe with hq | hq
        · exact Or.inl hq
        · exact Or.inr (by omega))]
    simp only [joinW, List.map_cons, List.flatten_cons]
    rw [List.take_append_eq_append_take]
    have harg : cfg.n - min cfg.n (e + (wsWords l).length) =
        cfg.n - e - (wsWords l).length := by
      omega
    rw [harg]

/-- The read loop in the entry-limited regime (byte budget unset or
beyond the pending word cost): it counts pending words up to the quota,
leaves exactly the remaining words pending, and retains lines whose
words are the consumed ones plus the leftover fragment's. -/
theorem readLoopF_nlimit (cfg : Config) (hd0 : cfg.delim0 = false)
    (hE : cfg.E = none) (hn : cfg.n ≠ 0) :
    ∀ (f : Nat) (d : Option (List Char)) (ls dl : List (List Char)) (e b : Nat),
    2 * ls.length + 1 + dCost d ≤ f → e ≤ cfg.n →
    cfg.s = 0 ∨ b + wCost (pendW d ls) < cfg.s →
    ∃ out : RLOut, readLoopF cfg f d ls dl e b = out ∧
      out.entries = min cfg.n (e + (pendW d ls).length) ∧
      pendW out.dat out.lines = (pendW d ls).drop (cfg.n - e) ∧
      (∃ dl2, out.dlist = dl ++ dl2 ∧
        joinW dl2 = (pendW d ls).take (cfg.n - e) ++ optW out.dat) ∧
      (out.doneInc = true → out.dat = none ∧ out.lines = []) ∧
      (out.doneInc = false → out.dat = none → out.entries = cfg.n) ∧
      (∀ l2, out.dat = some l2 → wsWords l2 ≠ []) ∧
      (ls = [] → out.lines = []) := by
  intro f
  induction f with
  | zero => intro d ls dl e b h he _; omega
  | succ f ih =>
    intro d ls dl e b h he hsafe
    cases d with
    | none =>
      cases ls with
      | nil =>
        refine ⟨⟨none, [], dl, e, b, true⟩, by simp [readLoopF], ?_, ?_,
          ⟨[], by simp, ?_⟩, fun _ => ⟨rfl, rfl⟩, ?_, ?_, fun _ => rfl⟩
        · simp only [pendW, optW, joinW, List.map_nil, List.flatten_nil, List.append_nil,
            List.length_nil]
          omega
        · simp [pendW, optW, joinW]
        · simp [pendW, optW, joinW]
        · intro h1
          exact absurd h1 (by simp)
        · intro l2 h2
          simp at h2
      | cons l ls2 =>
        have hpe : pendW (some l) ls2 = pendW none (l :: ls2) := by
          simp [pendW, optW, joinW]
        obtain ⟨out, ho, h1, h2, h3, h4, h5, h6, h7⟩ := ih (some l) ls2 dl e b
          (by simp only [dCost, List.length_cons] at h ⊢; omega) he
          (by rw [hpe]; exact hsafe)
        refine ⟨out, ?_, ?_, ?_, ?_, h4, h5, h6, ?_⟩
        · simp only [readLoopF]
          exact ho
        · rw [h1, hpe]
        · rw [h2, hpe]
        · rw [← hpe]
          exact h3
        · intro hq
          exact absurd hq (by simp)
    | some dd =>
      simp only [dCost] at h
      have hps0 : pendW (some dd) ls = wsWords dd ++ pendW none ls := by
        simp [pendW, optW]
      have hcp : wCost (pendW (some dd) ls) = wCost (wsWords dd) + wCost (pendW none ls) := by
        rw [hps0, wCost_append]
      obtain ⟨res, b2, hfd, hcd, hcl, hb2⟩ := handle_nlimit cfg hd0 hE hn dd e b he
        (by
          rcases hsafe with hq | hq
          · exact Or.inl hq
          · exact Or.inr (by omega))
      have hplen : (pendW (some dd) ls).length = (wsWords dd).length + (joinW ls).length := by
        simp [pendW, optW]
      rcases hcl with ⟨hres, hrem⟩ | ⟨hres, hrem, hefin⟩ | ⟨l2, hres, hwl2, hrem, hefin⟩
      · -- needMore: whole line consumed, keep reading
        subst hres
        have hwdd : (wsWords dd).length ≤ cfg.n - e := by
          have hq : ((wsWords dd).drop (cfg.n - e)).length = 0 := by
            rw [hrem]
            rfl
          rw [List.length_drop] at hq
          omega
        have he1 : min cfg.n (e + (wsWords dd).length) = e + (wsWords dd).length := by
          omega
        obtain ⟨out, ho, h1, h2, h3, h4, h5, h6, h7⟩ := ih none ls (dl ++ [dd])
          (e + (wsWords dd).length) b2 (by simp only [dCost]; omega) (by omega)
          (by
            rcases hsafe with hq | hq
            · exact Or.inl hq
            · exact Or.inr (by omega))
        obtain ⟨dl2, hdl2, hjoin⟩ := h3
        refine ⟨out, ?_, ?_, ?_, ⟨dd :: dl2, ?_, ?_⟩, h4, h5, h6, h7⟩
        · simp only [readLoopF, hcd, he1]
          exact ho
        · rw [h1]
          simp only [pendW, optW, List.nil_append, List.length_append] at hplen ⊢
          omega
        · rw [h2]
          simp only [pendW, optW, List.nil_append]
          rw [List.drop_append_eq_append_drop, hrem, List.nil_append]
          congr 1
          omega
        · rw [hdl2]
          simp
        · have hps : pendW (some dd) ls = wsWords dd ++ pendW none ls := by
            simp [pendW, optW]
          have harg : cfg.n - (e + (wsWords dd).length) =
              cfg.n - e - (wsWords dd).length := by
            omega
          rw [joinW_cons, hjoin, hps, List.take_append_eq_append_take,
            List.take_of_length_le (by omega : (wsWords dd).length ≤ cfg.n - e),
            List.append_assoc, harg]
      · -- allConsumed: quota filled exactly at end of line
        subst hres
        have hwdd : (wsWords dd).length ≤ cfg.n - e := by
          have hq : ((wsWords dd).drop (cfg.n - e)).length = 0 := by
            rw [hrem]
            rfl
          rw [List.length_drop] at hq
          omega
        refine ⟨⟨none, ls, dl ++ [dd], min cfg.n (e + (wsWords dd).length), b2, false⟩,
          ?_, ?_, ?_, ⟨[dd], rfl, ?_⟩, ?_, ?_, ?_, fun hq => hq⟩
        · simp only [readLoopF, hcd]
        · simp only [pendW, optW, List.nil_append, List.length_append]
          omega
        · simp only [pendW, optW, List.nil_append]
          rw [List.drop_append_eq_append_drop, hrem, List.nil_append]
          have hz : (joinW ls).drop ((cfg.n - e) - (wsWords dd).length) = joinW ls := by
            have : (cfg.n - e) - (wsWords dd).length = 0 := by omega
            rw [this, List.drop_zero]
          rw [hz]
        · have hps : pendW (some dd) ls = wsWords dd ++ pendW none ls := by
            simp [pendW, optW]
          have hz : (pendW none ls).take (cfg.n - e - (wsWords dd).length) = [] := by
            have hzz : cfg.n - e - (wsWords dd).length = 0 := by omega
            rw [hzz, List.take_zero]
          rw [hps, List.take_append_eq_append_take,
            List.take_of_length_le (by omega : (wsWords dd).length ≤ cfg.n - e), hz]
          simp [joinW, optW]
        · intro hq
          exact absurd hq (by simp)
        · intro _ _
          exact hefin
        · intro l2 h2
          simp at h2
      · -- leftover: quota filled inside the line
        subst hres
        have hwdd : cfg.n - e < (wsWords dd).length := by
          by_cases hq : (wsWords dd).length ≤ cfg.n - e
          · exfalso
            apply hrem
            exact List.drop_eq_nil_of_le hq
          · omega
        refine ⟨⟨some l2, ls, dl ++ [dd], min cfg.n (e + (wsWords dd).length), b2, false⟩,
          ?_, ?_, ?_, ⟨[dd], rfl, ?_⟩, ?_, ?_, ?_, fun hq => hq⟩
        · simp only [readLoopF, hcd]
        · simp only [pendW, optW, List.nil_append, List.length_append]
          omega
        · simp only [pendW, optW]
          rw [List.drop_append_eq_append_drop]
          have hz : (joinW ls).drop ((cfg.n - e) - (wsWords dd).length) = joinW ls := by
            have : (cfg.n - e) - (wsWords dd).length = 0 := by omega
            rw [this, List.drop_zero]
          rw [hz, hwl2]
        · have hps : pendW (some dd) ls = wsWords dd ++ pendW none ls := by
            simp [pendW, optW]
          have hz : (pendW none ls).take (cfg.n - e - (wsWords dd).length) = [] := by
            have hzz : cfg.n - e - (wsWords dd).length = 0 := by omega
            rw [hzz, List.take_zero]
          rw [hps, List.take_append_eq_append_take, hz, List.append_nil]
          simp only [joinW, optW, List.map_cons, List.map_nil, List.flatten_cons,
            List.flatten_nil, List.append_nil]
          rw [hwl2]
          exact (List.take_append_drop (cfg.n - e) (wsWords dd)).symm
        · intro hq
          exact absurd hq (by simp)
        · intro _ hq
          simp at hq
        · intro l3 h3
          injection h3 with h4
          rw [← h4, hwl2]
          exact hrem

/-- The exec loop in the entry-limited regime: the batches partition the
pending words in order, and every batch before the last collects exactly
the quota. -/
theorem runLoop_nlimit (cfg : Config) (hd0 : cfg.delim0 = false)
    (hE : cfg.E = none) (hn : cfg.n ≠ 0) (hr : cfg.rFlag = false) :
    ∀ (p : Nat) (f : Nat) (d : Option (List Char)) (ls : List (List Char)) (done : Bool)
      (acc : List (List (List Char))),
    (pendW d ls).length = p → p + 2 ≤ f →
    (done = true → ls = []) →
    (∀ l2, d = some l2 → wsWords l2 ≠ []) →
    cfg.s = 0 ∨ cmdBytes cfg + wCost (pendW d ls) < cfg.s →
    ∃ bts, runLoop cfg f d ls done acc = some (.ok (acc.reverse ++ bts)) ∧
      bts.flatten = pendW d ls ∧
      (∀ x ∈ bts.dropLast, x.length = cfg.n) := by
  intro p
  induction p using Nat.strong_induction_on with
  | _ p ih =>
    intro f d ls done acc hp hf hdone hd hsafe
    cases f with
    | zero => omega
    | succ f =>
      by_cases hterm : d = none ∧ done = true
      · obtain ⟨hdn, hdt⟩ := hterm
        subst hdn
        have hls : ls = [] := hdone hdt
        subst hls
        refine ⟨[], ?_, by simp [pendW, optW, joinW], by simp⟩
        simp only [runLoop]
        rw [if_pos (And.intro (by simp) hdt)]
        simp
      · obtain ⟨out, ho, h1, h2, h3, h4, h5, h6, h7⟩ :=
          readLoopF_nlimit cfg hd0 hE hn (2 * ls.length + 3) d ls [] 0 (cmdBytes cfg)
            (by cases d <;> simp [dCost]) (by omega) hsafe
        obtain ⟨dl2, hdl2, hjoin⟩ := h3
        rw [Nat.sub_zero] at h2 hjoin
        have hsplitc : wCost (pendW d ls) =
            wCost ((pendW d ls).take cfg.n) + wCost ((pendW d ls).drop cfg.n) := by
          conv_lhs => rw [← List.take_append_drop cfg.n (pendW d ls)]
          rw [wCost_append]
        have hwdl2 : wCost (joinW dl2) ≤ wCost (pendW d ls) := by
          have h1t : wCost (optW out.dat) ≤ wCost (pendW out.dat out.lines) := by
            simp only [pendW, wCost_append]
            omega
          rw [h2] at h1t
          rw [hjoin, wCost_append]
          omega
        have hbatch : fillToks cfg out.dlist = (pendW d ls).take cfg.n := by
          have hfp := fillPass_nlimit cfg hd0 hE hn dl2 0 (cmdBytes cfg) (by omega)
            (by
              rcases hsafe with hq | hq
              · exact Or.inl hq
              · exact Or.inr (by omega))
          rw [Nat.sub_zero] at hfp
          rw [fillToks, hdl2, List.nil_append, hfp, hjoin]
          cases hdat : out.dat with
          | none =>
            simp only [optW, List.append_nil]
            rw [List.take_take, Nat.min_self]
          | some l2 =>
            have hw2 : wsWords l2 ≠ [] := h6 l2 hdat
            have hPn : cfg.n ≤ (pendW d ls).length := by
              by_contra hq
              push_neg at hq
              have hdrop : (pendW d ls).drop cfg.n = [] := List.drop_eq_nil_of_le (by omega)
              have h2' := h2
              rw [hdrop, hdat] at h2'
              simp only [pendW, optW] at h2'
              exact hw2 (List.append_eq_nil.mp h2').1
            simp only [optW]
            rw [List.take_append_eq_append_take, List.take_take, Nat.min_self]
            have hz : (wsWords l2).take (cfg.n - ((pendW d ls).take cfg.n).length) = [] := by
              rw [List.length_take]
              have hzz : cfg.n - min cfg.n (pendW d ls).length = 0 := by omega
              rw [hzz, List.take_zero]
            rw [hz, List.append_nil]
        have hent : out.entries = min cfg.n (pendW d ls).length := by
          rw [h1]
          simp
        by_cases hP0 : pendW d ls = []
        · have hdat : out.dat = none := by
            cases hdat2 : out.dat with
            | none => rfl
            | some l2 =>
              exfalso
              have h2' := h2
              rw [hP0, List.drop_nil, hdat2] at h2'
              simp only [pendW, optW] at h2'
              exact h6 l2 hdat2 (List.append_eq_nil.mp h2').1
          have hent0 : out.entries = 0 := by
            rw [hent, hP0]
            simp
          have hdi : out.doneInc = true := by
            cases hq : out.doneInc with
            | true => rfl
            | false =>
              have hq2 := h5 hq hdat
              rw [hent0] at hq2
              omega
          have hlines : out.lines = [] := (h4 hdi).2
          refine ⟨[[]], ?_, by rw [hP0]; simp, by simp⟩
          simp only [runLoop, readLoop]
          rw [if_neg hterm, ho, hent0, hdat, hlines, hdi]
          rw [if_neg (by rw [hr]; simp)]
          rw [if_neg (by simp)]
          have hb2 : fillToks cfg out.dlist = [] := by
            rw [hbatch, hP0, List.take_nil]
          rw [hb2]
          cases f with
          | zero => omega
          | succ f2 =>
            simp only [runLoop]
            rw [if_pos (And.intro (by simp) (by simp))]
            simp
        · have htpos : out.entries ≠ 0 := by
            rw [hent]
            have hq : 0 < (pendW d ls).length := List.length_pos.mpr hP0
            omega
          by_cases hPlen : cfg.n ≤ (pendW d ls).length
          · -- full batch of exactly n, recurse on the rest
            have hentn : out.entries = cfg.n := by
              rw [hent]
              omega
            have hinv1 : (done || out.doneInc) = true → out.lines = [] := by
              intro hq
              rcases Bool.or_eq_true_iff.mp hq with hq2 | hq2
              · exact h7 (hdone hq2)
              · exact (h4 hq2).2
            have hlt : (pendW out.dat out.lines).length < p := by
              rw [h2, List.length_drop]
              omega
            obtain ⟨bts2, hrun, hflat, hlast⟩ := ih (pendW out.dat out.lines).length hlt
              f out.dat out.lines (done || out.doneInc)
              ((pendW d ls).take cfg.n :: acc) rfl (by rw [h2, List.length_drop]; omega)
              hinv1 h6
              (by
                rcases hsafe with hq | hq
                · exact Or.inl hq
                · refine Or.inr ?_
                  rw [h2]
                  omega)
            refine ⟨(pendW d ls).take cfg.n :: bts2, ?_, ?_, ?_⟩
            · simp only [runLoop, readLoop]
              rw [if_neg hterm, ho]
              rw [if_neg (fun hc => htpos hc.1)]
              rw [if_neg (fun hc => htpos hc.2)]
              rw [hbatch, hrun]
              simp
            · rw [List.flatten_cons, hflat, h2]
              exact List.take_append_drop cfg.n (pendW d ls)
            · intro x hx
              cases bts2 with
              | nil => simp at hx
              | cons y ys =>
                rw [List.dropLast_cons₂] at hx
                rcases List.mem_cons.mp hx with hx2 | hx2
                · rw [hx2, List.length_take]
                  omega
                · exact hlast x hx2
          · -- final short batch: everything left fits below the quota
            push_neg at hPlen
            have hdat : out.dat = none := by
              cases hdat2 : out.dat with
              | none => rfl
              | some l2 =>
                exfalso
                have hdrop : (pendW d ls).drop cfg.n = [] := List.drop_eq_nil_of_le (by omega)
                have h2' := h2
                rw [hdrop, hdat2] at h2'
                simp only [pendW, optW] at h2'
                exact h6 l2 hdat2 (List.append_eq_nil.mp h2').1
            have hdi : out.doneInc = true := by
              cases hq : out.doneInc with
              | true => rfl
              | false =>
                have hq2 := h5 hq hdat
                rw [hent] at hq2
                omega
            have hlines : out.lines = [] := (h4 hdi).2
            have hbfull : (pendW d ls).take cfg.n = pendW d ls :=
              List.take_of_length_le (by omega)
            refine ⟨[pendW d ls], ?_, by simp, by simp⟩
            simp only [runLoop, readLoop]
            rw [if_neg hterm, ho, hdat, hlines, hdi]
            rw [if_neg (fun hc => htpos hc.1)]
            rw [if_neg (by simp)]
            rw [hbatch, hbfull]
            cases f with
            | zero => omega
            | succ f2 =>
              simp only [runLoop]
              rw [if_pos (And.intro (by simp) (by simp))]
              simp

/-- Counterexample to claim C6 as stated: xargs.c:117-118 always forces
`TT.s = posix_max_bytes`, so the byte budget is active even with no
user byte limit.  With max-entries = 2, on a host where the effective
budget is 6, the input "abc de" yields the batches [abc] and [de]: the
byte budget closes the first batch after a single token, so a batch
other than the last does not contain exactly 2 tokens. -/
theorem c6_short_batch_cex :
    xargsMainRun 6 ⟨false, 2, 0, none, false, [['e']]⟩ 3 ['a', 'b', 'c', ' ', 'd', 'e'] =
      some (.ok [[['a', 'b', 'c']], [['d', 'e']]]) ∧
    ¬ (∀ x ∈ ([[['a', 'b', 'c']], [['d', 'e']]] :
        List (List (List Char))).dropLast, x.length = 2) := by
  decide

/-- Claim C6, amended for the always-active byte budget: with
max-entries = k+1 configured, no user byte limit, and the command words
plus all input words fitting the effective budget `posix_max_bytes`
(so the byte budget never closes a batch), the executed batches
partition the input's words in order with no omission or duplication,
and every batch except possibly the last contains exactly k+1
tokens. -/
theorem c6_batches_of_n_budget : ∀ (pmb : Nat) (cmd : List (List Char)) (k : Nat)
    (input : List Char),
    cmdBytes ⟨false, k + 1, 0, none, false, cmd⟩ + wCost (wsWords input) < pmb →
    ∃ bts, xargsMainRun pmb ⟨false, k + 1, 0, none, false, cmd⟩
        ((wsWords input).length + 2) input = some (.ok bts) ∧
      bts.flatten = wsWords input ∧
      (∀ x ∈ bts.dropLast, x.length = k + 1) := by
  intro pmb cmd k input hfit
  have hclamp : posixClampS pmb 0 = pmb := by simp [posixClampS]
  have hpend : pendW none (splitLines input) = wsWords input := by
    simp only [pendW, optW, List.nil_append]
    exact joinW_splitLines input
  have hfit' : cmdBytes ⟨false, k + 1, pmb, none, false, cmd⟩ + wCost (wsWords input) < pmb :=
    hfit
  obtain ⟨bts, h1, h2, h3⟩ := runLoop_nlimit ⟨false, k + 1, pmb, none, false, cmd⟩ rfl rfl
    (by simp) rfl (wsWords input).length ((wsWords input).length + 2) none (splitLines input)
    false [] (by rw [hpend]) (by omega) (fun h => absurd h (by simp))
    (fun l2 h => by simp at h) (Or.inr (by rw [hpend]; exact hfit'))
  refine ⟨bts, ?_, ?_, h3⟩
  · show xargsRun ⟨false, k + 1, posixClampS pmb 0, none, false, cmd⟩
      ((wsWords input).length + 2) input = some (.ok bts)
    rw [hclamp]
    simpa [xargsRun] using h1
  · rw [h2, hpend]

/-- Witness for `c6_batches_of_n_budget`: three words, quota two, ample
budget - batches [a, b] and [c]. -/
theorem c6_batches_of_n_budget_witness :
    cmdBytes ⟨false, 2, 0, none, false, [['e']]⟩ + wCost (wsWords ['a', ' ', 'b', ' ', 'c']) <
        1000 ∧
    ∃ bts, xargsMainRun 1000 ⟨false, 2, 0, none, false, [['e']]⟩
        ((wsWords ['a', ' ', 'b', ' ', 'c']).length + 2) ['a', ' ', 'b', ' ', 'c'] =
        some (.ok bts) ∧
      bts.flatten = wsWords ['a', ' ', 'b', ' ', 'c'] ∧
      (∀ x ∈ bts.dropLast, x.length = 2) :=
  ⟨by decide, c6_batches_of_n_budget 1000 [['e']] 1 ['a', ' ', 'b', ' ', 'c'] (by decide)⟩

/-! ### Claim C3: the active byte budget and the token stream -/

theorem costTake_nil (s b : Nat) : costTake s b [] = [] := rfl

theorem costDrop_nil (s b : Nat) : costDrop s b [] = [] := rfl

theorem costTake_cons (s b : Nat) (t : List Char) (ts : List (List Char)) :
    costTake s b (t :: ts) =
      if s = 0 ∨ b + t.length + 1 < s then t :: costTake s (b + t.length + 1) ts
      else [] := rfl

theorem costDrop_cons (s b : Nat) (t : List Char) (ts : List (List Char)) :
    costDrop s b (t :: ts) =
      if s = 0 ∨ b + t.length + 1 < s then costDrop s (b + t.length + 1) ts
      else t :: ts := rfl

/-- The greedy split is a split. -/
theorem costTake_append_drop (s : Nat) : ∀ (b : Nat) (W : List (List Char)),
    costTake s b W ++ costDrop s b W = W := by
  intro b W
  induction W generalizing b with
  | nil => rfl
  | cons t ts ih =>
    rw [costTake_cons, costDrop_cons]
    by_cases hfit : s = 0 ∨ b + t.length + 1 < s
    · rw [if_pos hfit, if_pos hfit, List.cons_append, ih]
    · rw [if_neg hfit, if_neg hfit, List.nil_append]

/-- Words rejected by the budget come from the original list. -/
theorem costDrop_mem (s : Nat) : ∀ (b : Nat) (W : List (List Char)) (t : List Char),
    t ∈ costDrop s b W → t ∈ W := by
  intro b W
  induction W generalizing b with
  | nil =>
    intro t h
    rw [costDrop_nil] at h
    exact absurd h (by simp)
  | cons u ts ih =>
    intro t h
    rw [costDrop_cons] at h
    by_cases hfit : s = 0 ∨ b + u.length + 1 < s
    · rw [if_pos hfit] at h
      exact List.mem_cons_of_mem u (ih (b + u.length + 1) t h)
    · rw [if_neg hfit] at h
      exact h

/-- If nothing is rejected, everything is accepted. -/
theorem costTake_all (s : Nat) {b : Nat} {W : List (List Char)}
    (h : costDrop s b W = []) : costTake s b W = W := by
  have h2 := costTake_append_drop s b W
  rw [h, List.append_nil] at h2
  exact h2

/-- Accepting all of `A` continues the greedy split into `B` with the
running count advanced by the cost of `A`. -/
theorem costTake_append_full (s : Nat) : ∀ (b : Nat) (A B : List (List Char)),
    costDrop s b A = [] →
    costTake s b (A ++ B) = A ++ costTake s (b + wCost A) B ∧
    costDrop s b (A ++ B) = costDrop s (b + wCost A) B := by
  intro b A
  induction A generalizing b with
  | nil =>
    intro B _
    rw [wCost_nil]
    simp
  | cons t ts ih =>
    intro B hd
    rw [costDrop_cons] at hd
    by_cases hfit : s = 0 ∨ b + t.length + 1 < s
    · rw [if_pos hfit] at hd
      obtain ⟨h1, h2⟩ := ih (b + t.length + 1) B hd
      have hb : b + t.length + 1 + wCost ts = b + wCost (t :: ts) := by
        rw [wCost_cons]
        omega
      constructor
      · rw [List.cons_append, costTake_cons, if_pos hfit, h1, hb, List.cons_append]
      · rw [List.cons_append, costDrop_cons, if_pos hfit, h2, hb]
    · rw [if_neg hfit] at hd
      exact absurd hd (by simp)

/-- A rejection inside `A` stops the greedy split before `B`. -/
theorem costTake_append_part (s : Nat) : ∀ (b : Nat) (A B : List (List Char)),
    costDrop s b A ≠ [] →
    costTake s b (A ++ B) = costTake s b A ∧
    costDrop s b (A ++ B) = costDrop s b A ++ B := by
  intro b A
  induction A generalizing b with
  | nil =>
    intro B h
    exact absurd rfl h
  | cons t ts ih =>
    intro B hd
    rw [costDrop_cons] at hd
    by_cases hfit : s = 0 ∨ b + t.length + 1 < s
    · rw [if_pos hfit] at hd
      obtain ⟨h1, h2⟩ := ih (b + t.length + 1) B hd
      constructor
      · rw [List.cons_append, costTake_cons, if_pos hfit, h1, costTake_cons, if_pos hfit]
      · rw [List.cons_append, costDrop_cons, if_pos hfit, h2, costDrop_cons, if_pos hfit]
    · constructor
      · rw [List.cons_append, costTake_cons, if_neg hfit, costTake_cons, if_neg hfit]
      · rw [List.cons_append, costDrop_cons, if_neg hfit, costDrop_cons, if_neg hfit,
          List.cons_append]

/-- The filling tokenizer with no entry quota and no stop string:
whatever the byte budget, it collects the greedy byte-fitting prefix of
the line's words; a rejection leaves a fragment carrying exactly the
rejected suffix. -/
theorem wsFill_budget (cfg : Config) (hn : cfg.n = 0) (hE : cfg.E = none) :
    ∀ (f : Nat) (l : List Char) (e b : Nat), l.length < f →
    ∃ res b2, wsFillF cfg f l e b =
        ⟨res, e + (costTake cfg.s b (wsWords l)).length, b2, costTake cfg.s b (wsWords l)⟩ ∧
      ((res = .needMore ∧ costDrop cfg.s b (wsWords l) = [] ∧ b2 = b + wCost (wsWords l)) ∨
       (∃ l2, res = .leftover l2 ∧ wsWords l2 = costDrop cfg.s b (wsWords l) ∧
         costDrop cfg.s b (wsWords l) ≠ [])) := by
  intro f
  induction f with
  | zero => intro l e b h; omega
  | succ f ih =>
    intro l e b h
    simp only [wsFillF]
    by_cases h0 : l = []
    · rw [if_pos h0]
      subst h0
      rw [wsWords_nil]
      exact ⟨.needMore, b, by simp [costTake_nil], Or.inl ⟨rfl, rfl, by simp [wCost_nil]⟩⟩
    · rw [if_neg h0, if_neg (by rw [hn]; simp)]
      by_cases h2 : l.dropWhile isSpc = []
      · rw [if_pos h2, wsWords_eq_nil_of_drop h2]
        exact ⟨.needMore, b, by simp [costTake_nil], Or.inl ⟨rfl, rfl, by simp [wCost_nil]⟩⟩
      · rw [if_neg h2]
        have hwl : wsWords l = (l.dropWhile isSpc).takeWhile nsp ::
            wsWords ((l.dropWhile isSpc).dropWhile nsp) := by
          rw [wsWords_unfold l, if_neg h2]
        by_cases hfit : cfg.s = 0 ∨ b + ((l.dropWhile isSpc).takeWhile nsp).length + 1 < cfg.s
        · rw [tokLoop_safe hfit, if_neg (by simp), if_neg (by rw [hE]; simp)]
          obtain ⟨res, b2, hrec, hcl⟩ := ih ((l.dropWhile isSpc).dropWhile nsp) (e + 1)
            (b + ((l.dropWhile isSpc).takeWhile nsp).length + 1)
            (by have := rest_length_lt h2; omega)
          rw [hrec]
          have hct : costTake cfg.s b (wsWords l) =
              (l.dropWhile isSpc).takeWhile nsp ::
                costTake cfg.s (b + ((l.dropWhile isSpc).takeWhile nsp).length + 1)
                  (wsWords ((l.dropWhile isSpc).dropWhile nsp)) := by
            rw [hwl, costTake_cons, if_pos hfit]
          have hcd : costDrop cfg.s b (wsWords l) =
              costDrop cfg.s (b + ((l.dropWhile isSpc).takeWhile nsp).length + 1)
                (wsWords ((l.dropWhile isSpc).dropWhile nsp)) := by
            rw [hwl, costDrop_cons, if_pos hfit]
          refine ⟨res, b2, ?_, ?_⟩
          · rw [hct]
            simp only [List.length_cons, FOut.mk.injEq]
            repeat' apply And.intro
            all_goals first | trivial | omega
          · rw [hcd]
            rcases hcl with ⟨ha, hb', hc⟩ | ⟨l2, ha, hb', hc⟩
            · refine Or.inl ⟨ha, hb', ?_⟩
              rw [hwl, wCost_cons]
              omega
            · exact Or.inr ⟨l2, ha, hb', hc⟩
        · have hs0 : cfg.s ≠ 0 := fun hq => hfit (Or.inl hq)
          have hge : cfg.s ≤ b + ((l.dropWhile isSpc).takeWhile nsp).length + 1 := by
            rcases Nat.lt_or_ge (b + ((l.dropWhile isSpc).takeWhile nsp).length + 1) cfg.s
              with hq | hq
            · exact absurd (Or.inr hq) hfit
            · exact hq
          rw [if_pos (tokLoop_hit hs0 b (l.dropWhile isSpc) hge)]
          have hct : costTake cfg.s b (wsWords l) = [] := by
            rw [hwl, costTake_cons, if_neg hfit]
          have hcd : costDrop cfg.s b (wsWords l) = wsWords l := by
            rw [hwl, costDrop_cons, if_neg hfit, ← hwl]
          refine ⟨.leftover (l.dropWhile isSpc), (tokLoop cfg.s b (l.dropWhile isSpc)).2, ?_,
            Or.inr ⟨l.dropWhile isSpc, rfl, ?_, ?_⟩⟩
          · rw [hct]
            simp
          · rw [hcd, wsWords_dropWhile]
          · rw [hcd]
            intro hq
            exact h2 ((wsWords_nil_iff l).mp hq)

/-- `handle_entries` with no entry quota and no stop string: fill and
count agree and collect the greedy byte-fitting prefix of the line's
words. -/
theorem handle_budget (cfg : Config) (hd0 : cfg.delim0 = false) (hn : cfg.n = 0)
    (hE : cfg.E = none) (l : List Char) (e b : Nat) :
    ∃ res b2,
      handleFill cfg l e b =
        ⟨res, e + (costTake cfg.s b (wsWords l)).length, b2, costTake cfg.s b (wsWords l)⟩ ∧
      handleCount cfg l e b =
        ⟨res, e + (costTake cfg.s b (wsWords l)).length, b2⟩ ∧
      ((res = .needMore ∧ costDrop cfg.s b (wsWords l) = [] ∧ b2 = b + wCost (wsWords l)) ∨
       (∃ l2, res = .leftover l2 ∧ wsWords l2 = costDrop cfg.s b (wsWords l) ∧
         costDrop cfg.s b (wsWords l) ≠ [])) := by
  obtain ⟨res, b2, hf, hcl⟩ := wsFill_budget cfg hn hE (l.length + 1) l e b (by omega)
  obtain ⟨h1, -⟩ := handleAgree cfg l e b
  refine ⟨res, b2, ?_, ?_, hcl⟩
  · simp only [handleFill, if_neg (show ¬ cfg.delim0 = true by simp [hd0])]
    exact hf
  · rw [h1]
    simp only [handleFill, if_neg (show ¬ cfg.delim0 = true by simp [hd0])]
    rw [hf]
    rfl

/-- The read loop with no entry quota and no stop string: it counts the
greedy byte-fitting prefix of the pending words, leaves exactly the
rejected suffix pending, and the fill pass over the newly retained
lines (from the same starting counters) collects that same prefix. -/
theorem readLoopF_budget (cfg : Config) (hd0 : cfg.delim0 = false) (hn : cfg.n = 0)
    (hE : cfg.E = none) :
    ∀ (f : Nat) (d : Option (List Char)) (ls dl : List (List Char)) (e b : Nat),
    2 * ls.length + 1 + dCost d ≤ f →
    ∃ out : RLOut, readLoopF cfg f d ls dl e b = out ∧
      out.entries = e + (costTake cfg.s b (pendW d ls)).length ∧
      pendW out.dat out.lines = costDrop cfg.s b (pendW d ls) ∧
      (∃ dl2, out.dlist = dl ++ dl2 ∧
        (fillPassF cfg dl2 e b).2.2 = costTake cfg.s b (pendW d ls)) ∧
      (out.doneInc = true → out.dat = none ∧ out.lines = []) ∧
      (out.dat = none → out.doneInc = true) ∧
      (∀ l2, out.dat = some l2 → wsWords l2 ≠ []) ∧
      (ls = [] → out.lines = []) := by
  intro f
  induction f with
  | zero => intro d ls dl e b h; omega
  | succ f ih =>
    intro d ls dl e b h
    cases d with
    | none =>
      cases ls with
      | nil =>
        refine ⟨⟨none, [], dl, e, b, true⟩, by simp [readLoopF], ?_, ?_,
          ⟨[], by simp, ?_⟩, fun _ => ⟨rfl, rfl⟩, fun _ => rfl, ?_, fun _ => rfl⟩
        · simp [pendW, optW, joinW, costTake_nil]
        · simp [pendW, optW, joinW, costDrop_nil]
        · simp [fillPassF, pendW, optW, joinW, costTake_nil]
        · intro l2 h2
          simp at h2
      | cons l ls2 =>
        have hpe : pendW (some l) ls2 = pendW none (l :: ls2) := by
          simp [pendW, optW, joinW]
        obtain ⟨out, ho, h1, h2, h3, h4, h5, h6, h7⟩ := ih (some l) ls2 dl e b
          (by simp only [dCost, List.length_cons] at h ⊢; omega)
        refine ⟨out, ?_, ?_, ?_, ?_, h4, h5, h6, ?_⟩
        · simp only [readLoopF]
          exact ho
        · rw [h1, hpe]
        · rw [h2, hpe]
        · rw [← hpe]
          exact h3
        · intro hq
          exact absurd hq (by simp)
    | some dd =>
      simp only [dCost] at h
      have hps0 : pendW (some dd) ls = wsWords dd ++ pendW none ls := by
        simp [pendW, optW]
      obtain ⟨res, b2, hfd, hcd, hcl⟩ := handle_budget cfg hd0 hn hE dd e b
      rcases hcl with ⟨hres, hdrop, hb2⟩ | ⟨l2, hres, hwl2, hne⟩
      · -- needMore: the whole line fitted, keep reading
        subst hres
        have hsplit := costTake_append_full cfg.s b (wsWords dd) (pendW none ls) hdrop
        have hctdd : costTake cfg.s b (wsWords dd) = wsWords dd := costTake_all cfg.s hdrop
        obtain ⟨out, ho, h1, h2, h3, h4, h5, h6, h7⟩ := ih none ls (dl ++ [dd])
          (e + (costTake cfg.s b (wsWords dd)).length) b2 (by simp only [dCost]; omega)
        obtain ⟨dl2, hdl2, hfill⟩ := h3
        refine ⟨out, ?_, ?_, ?_, ⟨dd :: dl2, ?_, ?_⟩, h4, h5, h6, h7⟩
        · simp only [readLoopF, hcd]
          exact ho
        · rw [hctdd, hb2] at h1
          rw [h1, hps0, hsplit.1, List.length_append]
          omega
        · rw [hb2] at h2
          rw [h2, hps0, hsplit.2]
        · rw [hdl2]
          simp
        · simp only [fillPassF, hfd]
          rw [hfill, hctdd, hb2, hps0, hsplit.1]
      · -- leftover: the budget rejected a word inside this line
        subst hres
        have hpart := costTake_append_part cfg.s b (wsWords dd) (pendW none ls) hne
        refine ⟨⟨some l2, ls, dl ++ [dd], e + (costTake cfg.s b (wsWords dd)).length, b2,
          false⟩, ?_, ?_, ?_, ⟨[dd], rfl, ?_⟩, ?_, ?_, ?_, fun hq => hq⟩
        · simp only [readLoopF, hcd]
        · rw [hps0, hpart.1]
        · have hpl2 : pendW (some l2) ls = wsWords l2 ++ pendW none ls := by
            simp [pendW, optW]
          rw [hpl2, hwl2, hps0, hpart.2]
        · simp only [fillPassF, hfd]
          rw [List.append_nil, hps0, hpart.1]
        · intro hq
          exact absurd hq (by simp)
        · intro hq
          exact absurd hq (by simp)
        · intro l3 h3
          injection h3 with h4
          rw [← h4, hwl2]
          exact hne

/-- The exec loop with no entry quota and no stop string, when every
pending word individually fits the byte budget at the start of a fresh
batch: the run succeeds and the executed batches partition the pending
words in order. -/
theorem runLoop_budget (cfg : Config) (hd0 : cfg.delim0 = false) (hn : cfg.n = 0)
    (hE : cfg.E = none) (hr : cfg.rFlag = false) :
    ∀ (p : Nat) (f : Nat) (d : Option (List Char)) (ls : List (List Char)) (done : Bool)
      (acc : List (List (List Char))),
    (pendW d ls).length = p → p + 2 ≤ f →
    (done = true → ls = []) →
    (∀ l2, d = some l2 → wsWords l2 ≠ []) →
    (∀ t ∈ pendW d ls, cfg.s = 0 ∨ cmdBytes cfg + t.length + 1 < cfg.s) →
    ∃ bts, runLoop cfg f d ls done acc = some (.ok (acc.reverse ++ bts)) ∧
      bts.flatten = pendW d ls := by
  intro p
  induction p using Nat.strong_induction_on with
  | _ p ih =>
    intro f d ls done acc hp hf hdone hd hfit
    cases f with
    | zero => omega
    | succ f =>
      by_cases hterm : d = none ∧ done = true
      · obtain ⟨hdn, hdt⟩ := hterm
        subst hdn
        have hls : ls = [] := hdone hdt
        subst hls
        refine ⟨[], ?_, by simp [pendW, optW, joinW]⟩
        simp only [runLoop]
        rw [if_pos (And.intro (by simp) hdt)]
        simp
      · obtain ⟨out, ho, h1, h2, h3, h4, h5, h6, h7⟩ :=
          readLoopF_budget cfg hd0 hn hE (2 * ls.length + 3) d ls [] 0 (cmdBytes cfg)
            (by cases d <;> simp [dCost])
        obtain ⟨dl2, hdl2, hfill⟩ := h3
        have hbatch : fillToks cfg out.dlist =
            costTake cfg.s (cmdBytes cfg) (pendW d ls) := by
          rw [fillToks, hdl2, List.nil_append]
          exact hfill
        have hent : out.entries = (costTake cfg.s (cmdBytes cfg) (pendW d ls)).length := by
          rw [h1]
          omega
        by_cases hP0 : pendW d ls = []
        · -- nothing pending: one final empty batch, then the loop ends
          have hct0 : costTake cfg.s (cmdBytes cfg) (pendW d ls) = [] := by
            rw [hP0, costTake_nil]
          have hdat : out.dat = none := by
            cases hdat2 : out.dat with
            | none => rfl
            | some l2 =>
              exfalso
              have h2' := h2
              rw [hP0, costDrop_nil, hdat2] at h2'
              simp only [pendW, optW] at h2'
              exact h6 l2 hdat2 (List.append_eq_nil.mp h2').1
          have hdi : out.doneInc = true := h5 hdat
          have hlines : out.lines = [] := (h4 hdi).2
          have hent0 : out.entries = 0 := by
            rw [hent, hct0]
            rfl
          refine ⟨[[]], ?_, by rw [hP0]; simp⟩
          simp only [runLoop, readLoop]
          rw [if_neg hterm, ho, hent0, hdat, hlines, hdi]
          rw [if_neg (by rw [hr]; simp)]
          rw [if_neg (by simp)]
          have hft0 : fillToks cfg out.dlist = [] := by
            rw [hbatch, hct0]
          rw [hft0]
          cases f with
          | zero => omega
          | succ f2 =>
            simp only [runLoop]
            rw [if_pos (And.intro (by simp) (by simp))]
            simp
        · -- at least one pending word: the batch is nonempty
          obtain ⟨t, P2, hPcons⟩ : ∃ t P2, pendW d ls = t :: P2 := by
            cases hq : pendW d ls with
            | nil => exact absurd hq hP0
            | cons t P2 => exact ⟨t, P2, rfl⟩
          have hfit1 : cfg.s = 0 ∨ cmdBytes cfg + t.length + 1 < cfg.s :=
            hfit t (by rw [hPcons]; exact List.mem_cons_self t P2)
          have hctne : costTake cfg.s (cmdBytes cfg) (pendW d ls) ≠ [] := by
            rw [hPcons, costTake_cons, if_pos hfit1]
            simp
          have htpos : out.entries ≠ 0 := by
            rw [hent]
            have := List.length_pos.mpr hctne
            omega
          have hinv1 : (done || out.doneInc) = true → out.lines = [] := by
            intro hq
            rcases Bool.or_eq_true_iff.mp hq with hq2 | hq2
            · exact h7 (hdone hq2)
            · exact (h4 hq2).2
          have hlen : (costTake cfg.s (cmdBytes cfg) (pendW d ls)).length +
              (costDrop cfg.s (cmdBytes cfg) (pendW d ls)).length = (pendW d ls).length := by
            have hq := congrArg List.length (costTake_append_drop cfg.s (cmdBytes cfg)
              (pendW d ls))
            rw [List.length_append] at hq
            exact hq
          have hctpos : 0 < (costTake cfg.s (cmdBytes cfg) (pendW d ls)).length :=
            List.length_pos.mpr hctne
          have hlt : (pendW out.dat out.lines).length < p := by
            rw [h2]
            omega
          obtain ⟨bts2, hrun, hflat⟩ := ih (pendW out.dat out.lines).length hlt
            f out.dat out.lines (done || out.doneInc)
            (costTake cfg.s (cmdBytes cfg) (pendW d ls) :: acc) rfl
            (by omega) hinv1 h6
            (by
              intro t2 ht2
              refine hfit t2 ?_
              rw [h2] at ht2
              exact costDrop_mem cfg.s (cmdBytes cfg) (pendW d ls) t2 ht2)
          refine ⟨costTake cfg.s (cmdBytes cfg) (pendW d ls) :: bts2, ?_, ?_⟩
          · simp only [runLoop, readLoop]
            rw [if_neg hterm, ho]
            rw [if_neg (fun hc => htpos hc.1)]
            rw [if_neg (fun hc => htpos hc.2)]
            rw [hbatch, hrun]
            simp
          · rw [List.flatten_cons, hflat, h2]
            exact costTake_append_drop cfg.s (cmdBytes cfg) (pendW d ls)

/-- Counterexample to claim C3 as stated: xargs.c:117-118 always forces
`TT.s = posix_max_bytes`, so the byte budget is active even when no
max-entries, max-bytes or stop string is configured.  On a host where
the effective budget is 5, input "ab cdefg" executes one batch [ab] and
then dies with "argument too long" (xargs.c:169): the tokens passed to
the command across all batches omit cdefg. -/
theorem c3_budget_omits_tokens_cex :
    xargsMainRun 5 ⟨false, 0, 0, none, false, [['e']]⟩ 3
        ['a', 'b', ' ', 'c', 'd', 'e', 'f', 'g'] =
      some (.tooLong [[['a', 'b']]]) ∧
    [[['a', 'b']]].flatten ≠ wsWords ['a', 'b', ' ', 'c', 'd', 'e', 'f', 'g'] := by
  decide

/-- Claim C3, amended for the always-active byte budget: in whitespace
mode with no user max-entries, max-bytes or stop string, if every input
word fits a fresh batch under the effective budget `posix_max_bytes`
(command bytes + word length + 1 strictly below it), the run succeeds
and the concatenation of the token sequences passed to the command
across all batches equals the input's whitespace-separated words, in
their original order, with no omission or duplication (the budget may
split them across several batches). -/
theorem c3_tokens_complete_budget : ∀ (pmb : Nat) (cmd : List (List Char))
    (input : List Char),
    (∀ t ∈ wsWords input, cmdBytes ⟨false, 0, 0, none, false, cmd⟩ + t.length + 1 < pmb) →
    ∃ bts, xargsMainRun pmb ⟨false, 0, 0, none, false, cmd⟩
        ((wsWords input).length + 2) input = some (.ok bts) ∧
      bts.flatten = wsWords input := by
  intro pmb cmd input hfit
  have hclamp : posixClampS pmb 0 = pmb := by simp [posixClampS]
  have hpend : pendW none (splitLines input) = wsWords input := by
    simp only [pendW, optW, List.nil_append]
    exact joinW_splitLines input
  obtain ⟨bts, h1, h2⟩ := runLoop_budget ⟨false, 0, pmb, none, false, cmd⟩ rfl rfl rfl rfl
    (wsWords input).length ((wsWords input).length + 2) none (splitLines input)
    false [] (by rw [hpend]) (by omega) (fun h => absurd h (by simp))
    (fun l2 h => by simp at h)
    (by
      intro t ht
      rw [hpend] at ht
      exact Or.inr (hfit t ht))
  refine ⟨bts, ?_, ?_⟩
  · show xargsRun ⟨false, 0, posixClampS pmb 0, none, false, cmd⟩
      ((wsWords input).length + 2) input = some (.ok bts)
    rw [hclamp]
    simpa [xargsRun] using h1
  · rw [h2, hpend]

/-- Witness for `c3_tokens_complete_budget`: two words, ample budget -
every word is passed, in order. -/
theorem c3_tokens_complete_budget_witness :
    (∀ t ∈ wsWords ['h', 'i', ' ', 'y', 'o', 'u'],
      cmdBytes ⟨false, 0, 0, none, false, [['e']]⟩ + t.length + 1 < 1000) ∧
    ∃ bts, xargsMainRun 1000 ⟨false, 0, 0, none, false, [['e']]⟩
        ((wsWords ['h', 'i', ' ', 'y', 'o', 'u']).length + 2) ['h', 'i', ' ', 'y', 'o', 'u'] =
        some (.ok bts) ∧
      bts.flatten = wsWords ['h', 'i', ' ', 'y', 'o', 'u'] :=
  ⟨by decide, c3_tokens_complete_budget 1000 [['e']] ['h', 'i', ' ', 'y', 'o', 'u']
    (by decide)⟩
